import Mathlib

/-!
Verification of the pydantic-xml declaration layer (`model.py`) against its
specification.  The declaration layer itself (entity descriptors, the metaclass
driving serializer initialization, generic specialization, and the public
`to_xml_tree`/`from_xml_tree` methods) is embedded from the source.  The
serializer runtime (`serializers` module), the namespace registration helper
(`utils.register_nsmap`), and the validation engine are not part of the
source tree; they are modelled from the specification, and every such
definition is marked `Modelled from the spec:` in its doc comment.
-/

/-! ## Namespace maps and the process-wide namespace registry -/

/-- Namespace map attached to models and entities: an association list from
namespace shorthand to namespace URI, mirroring the python `nsmap` dict. -/
abbrev NsMap := List (String × String)

/-- Process-wide namespace registry: an association list from namespace URI to
its preferred shorthand. -/
abbrev NsRegistry := List (String × String)

/-- Modelled from the spec: `utils.register_nsmap` (the `utils` module is not
under `src/`).  Section 4.4: registering a URI that is already bound is a no-op
under the policy that the first successful registration wins; fresh URIs are
appended. -/
def register_nsmap (reg : NsRegistry) (nsmap : NsMap) : NsRegistry :=
  nsmap.foldl (fun r pu => if r.any (fun e => e.1 == pu.2) then r else r ++ [(pu.2, pu.1)]) reg

/-- Python truthiness of an optional nsmap: `None` and the empty dict are falsy. -/
def nsmapTruthy : Option NsMap → Bool
  | none => false
  | some m => !m.isEmpty

/-- Embeds the registry side effect of `XmlElementInfo.__init__` (model.py
lines 56-69): `if config.REGISTER_NS_PREFIXES and nsmap: register_nsmap(nsmap)`.
The `config.REGISTER_NS_PREFIXES` global option is the `registerOpt` argument. -/
def xmlElementInfoRegistryEffect (registerOpt : Bool) (reg : NsRegistry) (nsmap : Option NsMap) : NsRegistry :=
  if registerOpt && nsmapTruthy nsmap then register_nsmap reg (nsmap.getD []) else reg

/-- Embeds the registry side effect of `XmlWrapperInfo.__init__` (model.py
lines 95-110), which guards the registration identically. -/
def xmlWrapperInfoRegistryEffect (registerOpt : Bool) (reg : NsRegistry) (nsmap : Option NsMap) : NsRegistry :=
  if registerOpt && nsmapTruthy nsmap then register_nsmap reg (nsmap.getD []) else reg

/-- Embeds the registry side effect of `BaseXmlModel.__init_serializer__`
(model.py lines 203-208) for the model-level nsmap. -/
def initSerializerRegistryEffect (registerOpt : Bool) (reg : NsRegistry) (nsmap : Option NsMap) : NsRegistry :=
  if registerOpt && nsmapTruthy nsmap then register_nsmap reg (nsmap.getD []) else reg

/-! ## Entity descriptors as subclasses of the validation engine's field info -/

/-- Modelled from the spec: the external validation engine's field-info type
(`pydantic.fields.FieldInfo`), recorded as the keyword arguments passed to its
constructor (for example a field default). -/
structure FieldInfo where
  kwargs : List (String × String)
deriving DecidableEq

/-- Embeds `XmlEntityInfo` (model.py lines 12-15): the common base of all xml
field meta-information, a subclass of the validation engine's `FieldInfo`. -/
structure XmlEntityInfo extends FieldInfo
deriving DecidableEq

/-- Embeds `XmlAttributeInfo` (model.py lines 18-43). -/
structure XmlAttributeInfo extends XmlEntityInfo where
  name : Option String
  ns : Option String
deriving DecidableEq

/-- Embeds `XmlElementInfo` (model.py lines 46-81). -/
structure XmlElementInfo extends XmlEntityInfo where
  tag : Option String
  ns : Option String
  nsmap : Option NsMap
deriving DecidableEq

/-- Inner entity stored by a wrapper descriptor. -/
inductive InnerEntity where
  | ofAttributeInfo (i : XmlAttributeInfo)
  | ofElementInfo (i : XmlElementInfo)
deriving DecidableEq

/-- Embeds `XmlWrapperInfo` (model.py lines 84-126). -/
structure XmlWrapperInfo extends XmlEntityInfo where
  path : String
  entity : Option InnerEntity
  ns : Option String
  nsmap : Option NsMap
deriving DecidableEq

/-- Embeds `XmlAttributeInfo.__init__` (model.py lines 27-35): forwards the
non-xml keyword arguments unchanged to the `FieldInfo` constructor via
`super().__init__(**kwargs)` and stores the xml-specific arguments. -/
def XmlAttributeInfo.init (name ns : Option String) (kwargs : List (String × String)) : XmlAttributeInfo :=
  { toXmlEntityInfo := { toFieldInfo := { kwargs := kwargs } }, name := name, ns := ns }

/-- Embeds `XmlElementInfo.__init__` (model.py lines 56-69), value part. -/
def XmlElementInfo.init (tag ns : Option String) (nsmap : Option NsMap)
    (kwargs : List (String × String)) : XmlElementInfo :=
  { toXmlEntityInfo := { toFieldInfo := { kwargs := kwargs } }, tag := tag, ns := ns, nsmap := nsmap }

/-- Embeds `XmlWrapperInfo.__init__` (model.py lines 95-110), value part.  The
`path` argument is positional and mandatory; `entity` defaults to `None` at the
python call site. -/
def XmlWrapperInfo.init (path : String) (entity : Option InnerEntity) (ns : Option String)
    (nsmap : Option NsMap) (kwargs : List (String × String)) : XmlWrapperInfo :=
  { toXmlEntityInfo := { toFieldInfo := { kwargs := kwargs } }, path := path, entity := entity,
    ns := ns, nsmap := nsmap }

/-- Embeds `attr` (model.py lines 129-134): marks a pydantic field as an xml
attribute.  The python signature captures `name` and `ns` and forwards the rest. -/
def attr (name ns : Option String) (kwargs : List (String × String)) : XmlAttributeInfo :=
  XmlAttributeInfo.init name ns kwargs

/-- Embeds `element` (model.py lines 137-142). -/
def element (tag ns : Option String) (nsmap : Option NsMap)
    (kwargs : List (String × String)) : XmlElementInfo :=
  XmlElementInfo.init tag ns nsmap kwargs

/-- Embeds `wrapped` (model.py lines 145-150). -/
def wrapped (path : String) (entity : Option InnerEntity) (ns : Option String)
    (nsmap : Option NsMap) (kwargs : List (String × String)) : XmlWrapperInfo :=
  XmlWrapperInfo.init path entity ns nsmap kwargs

/-! ## Scalar codec

Modelled from the spec (section 6): the default scalar codec covers the
primitive scalar kinds with a fixed canonical textual format per kind. -/

inductive ScalarKind where
  | sInt
  | sStr
  | sBool
deriving DecidableEq

inductive ScalarVal where
  | vInt (i : Int)
  | vStr (s : String)
  | vBool (b : Bool)
deriving DecidableEq

def ScalarVal.kind : ScalarVal → ScalarKind
  | .vInt _ => .sInt
  | .vStr _ => .sStr
  | .vBool _ => .sBool

/-- Little-endian decimal digits of `n`, with explicit fuel so the recursion is
structural. -/
def digitsRevAux : Nat → Nat → List Nat
  | 0, _ => []
  | _ + 1, 0 => []
  | fuel + 1, n + 1 => ((n + 1) % 10) :: digitsRevAux fuel ((n + 1) / 10)

/-- Value of a little-endian decimal digit list. -/
def ofDigitsRev : List Nat → Nat
  | [] => 0
  | d :: rest => d + 10 * ofDigitsRev rest

/-- Canonical decimal rendering of a natural number. -/
def encodeNat (n : Nat) : String :=
  if n = 0 then "0" else String.mk (((digitsRevAux n n).reverse).map Nat.digitChar)

/-- Decimal digit value of a character, if it is one. -/
def charDigit (c : Char) : Option Nat :=
  if 48 ≤ c.toNat && c.toNat ≤ 57 then some (c.toNat - 48) else none

def parseDigits : List Char → Option (List Nat)
  | [] => some []
  | c :: rest =>
      match charDigit c, parseDigits rest with
      | some d, some ds => some (d :: ds)
      | _, _ => none

/-- Parse a nonempty big-endian digit string. -/
def decodeNatChars (cs : List Char) : Option Nat :=
  match parseDigits cs with
  | none => none
  | some ds => if ds.isEmpty then none else some (ofDigitsRev ds.reverse)

/-- Canonical decimal rendering of an integer. -/
def encodeInt (i : Int) : String :=
  if i < 0 then "-" ++ encodeNat i.natAbs else encodeNat i.toNat

def decodeIntChars : List Char → Option Int
  | [] => none
  | c :: rest =>
      if c = '-' then (decodeNatChars rest).map (fun n => -(n : Int))
      else (decodeNatChars (c :: rest)).map (fun n => (n : Int))

def decodeInt (s : String) : Option Int := decodeIntChars s.data

def encodeBool (b : Bool) : String := if b then "true" else "false"

def decodeBool (s : String) : Option Bool :=
  if s = "true" then some true else if s = "false" then some false else none

/-- Modelled from the spec: encode direction of the default scalar codec. -/
def encodeScalar : ScalarVal → String
  | .vInt i => encodeInt i
  | .vStr s => s
  | .vBool b => encodeBool b

/-- Modelled from the spec: decode direction of the default scalar codec. -/
def decodeScalar : ScalarKind → String → Option ScalarVal
  | .sInt, s => (decodeInt s).map .vInt
  | .sStr, s => some (.vStr s)
  | .sBool, s => (decodeBool s).map .vBool

/-! ## The tree primitive -/

/-- Modelled from the spec: the external tree primitive's element node
(section 6): tag, attribute mapping, text content, ordered children. -/
inductive Element where
  | mk (tag : String) (attrs : List (String × String)) (text : Option String) (children : List Element)

def Element.tag : Element → String
  | .mk t _ _ _ => t

def Element.attrs : Element → List (String × String)
  | .mk _ a _ _ => a

def Element.text : Element → Option String
  | .mk _ _ x _ => x

def Element.children : Element → List Element
  | .mk _ _ _ ch => ch

/-- Store a key in an association list, overwriting an existing binding of the
same key and appending otherwise (dictionary semantics of xml attributes). -/
def setPairs : List (String × String) → String → String → List (String × String)
  | [], k, v => [(k, v)]
  | (k0, v0) :: rest, k, v =>
      if k0 = k then (k0, v) :: rest else (k0, v0) :: setPairs rest k v

/-- Tree primitive `set_attribute` (spec section 6): `node.set(name, value)`. -/
def Element.setAttr (el : Element) (k v : String) : Element :=
  .mk el.tag (setPairs el.attrs k v) el.text el.children

/-- Tree primitive `append_child`. -/
def Element.addChild (el : Element) (c : Element) : Element :=
  .mk el.tag el.attrs el.text (el.children ++ [c])

/-! ## Compiled serializer plans, instances and plain structures -/

mutual
/-- Modelled from the spec: a resolved entity descriptor inside a Compiled
Serializer (section 3).  Namespaces are already resolved into qualified
names/tags by the Schema Compiler, so each entry carries its resolved name.
A wrapper path of several segments is compiled into nested single-segment
`wrap` nodes (the compiler rejects a malformed empty path with a Schema error,
so every compiled wrapper has at least one segment). -/
inductive Entity where
  | attrE (name : String) (kind : ScalarKind)
  | elemS (tag : String) (kind : ScalarKind)
  | elemN (tag : String) (sub : Fields)
  | wrap (seg : String) (inner : Entity)
/-- Modelled from the spec: the ordered field plan of a Compiled Serializer:
field identifier, resolved entity descriptor (with its scalar codec or nested
plan), in declaration order. -/
inductive Fields where
  | fnil
  | fcons (name : String) (entity : Entity) (rest : Fields)
end

/-- A validated record instance: scalar leaf or nested record with named
fields in declaration order. -/
inductive Value where
  | vScalar (s : ScalarVal)
  | vRecord (fvs : List (String × Value))

/-- Modelled from the spec: the plain nested structure produced by the Runtime
Extractor (scalar values already decoded by the active codec). -/
inductive PlainVal where
  | pScalar (s : ScalarVal)
  | pRec (fs : List (String × PlainVal))

mutual
/-- Modelled from the spec: the Runtime Emitter's per-entity step
(section 4.2): an attribute sets a qualified attribute on the current node; a
scalar element appends a child holding the encoded text; a nested record
appends the child subtree produced by the nested plan; a wrapper creates its
intermediate node and emits the inner entity under it. -/
def emitEntity : Entity → Value → Element → Option Element
  | .attrE name _, .vScalar sv, node => some (node.setAttr name (encodeScalar sv))
  | .attrE _ _, _, _ => none
  | .elemS tag _, .vScalar sv, node =>
      some (node.addChild (.mk tag [] (some (encodeScalar sv)) []))
  | .elemS _ _, _, _ => none
  | .elemN tag sub, .vRecord fvs, node =>
      match emitFields sub fvs (.mk tag [] none []) with
      | none => none
      | some c => some (node.addChild c)
  | .elemN _ _, _, _ => none
  | .wrap seg inner, v, node =>
      match emitEntity inner v (.mk seg [] none []) with
      | none => none
      | some c => some (node.addChild c)
/-- Modelled from the spec: the Runtime Emitter walking the ordered field plan;
each field's value is read from the instance by name (the Validation Bridge's
field-read contract). -/
def emitFields : Fields → List (String × Value) → Element → Option Element
  | .fnil, _, node => some node
  | .fcons n e rest, vals, node =>
      match vals.lookup n with
      | none => none
      | some v =>
          match emitEntity e v node with
          | none => none
          | some node2 => emitFields rest vals node2
end

/-- Tree primitive search: the first child with the given resolved tag,
returned together with the remaining children.  The extractor walks the plan in
declaration order and consumes each matched child. -/
def extractFirst (tag : String) : List Element → Option (Element × List Element)
  | [] => none
  | c :: cs =>
      if c.tag = tag then some (c, cs)
      else
        match extractFirst tag cs with
        | none => none
        | some (e, rest) => some (e, c :: rest)

mutual
/-- Modelled from the spec: the Runtime Extractor's per-entity step
(section 4.3): locate the corresponding attribute or child element by resolved
name; a missing node or attribute yields field-absent, never an error; scalar
text is decoded via the active codec before being placed into the plain
structure (a value the codec cannot decode is likewise treated as absent and
left to the Validation Bridge's required-field handling); a wrapper descends
its intermediate node without creating it. -/
def extractEntity : Entity → List (String × String) → List Element → Option PlainVal × List Element
  | .attrE name k, attrs, children =>
      (((attrs.lookup name).bind (decodeScalar k)).map .pScalar, children)
  | .elemS tag k, _, children =>
      match extractFirst tag children with
      | none => (none, children)
      | some (c, rest) => ((decodeScalar k (c.text.getD "")).map .pScalar, rest)
  | .elemN tag sub, _, children =>
      match extractFirst tag children with
      | none => (none, children)
      | some (c, rest) => (some (.pRec (extractFields sub c.attrs c.children)), rest)
  | .wrap seg inner, _, children =>
      match extractFirst seg children with
      | none => (none, children)
      | some (c, rest) => ((extractEntity inner c.attrs c.children).1, rest)
/-- Modelled from the spec: the Runtime Extractor over the ordered field plan;
absent fields are omitted from the resulting plain structure. -/
def extractFields : Fields → List (String × String) → List Element → List (String × PlainVal)
  | .fnil, _, _ => []
  | .fcons n e rest, attrs, children =>
      match extractEntity e attrs children with
      | (none, children2) => extractFields rest attrs children2
      | (some pv, children2) => (n, pv) :: extractFields rest attrs children2
end

mutual
/-- Modelled from the spec: the Validation Bridge's build step for one entity
(`parse_obj`): a scalar must carry the declared kind; a nested record is built
recursively by the nested plan. -/
def buildE : Entity → PlainVal → Option Value
  | .attrE _ k, .pScalar sv => if sv.kind = k then some (.vScalar sv) else none
  | .elemS _ k, .pScalar sv => if sv.kind = k then some (.vScalar sv) else none
  | .elemN _ sub, .pRec ps => (buildF sub ps).map .vRecord
  | .wrap _ inner, pv => buildE inner pv
  | _, _ => none
/-- Modelled from the spec: the Validation Bridge building a record from a
plain structure: every declared field must be present with a value of the
declared shape, and the record's fields are produced in declaration order. -/
def buildF : Fields → List (String × PlainVal) → Option (List (String × Value))
  | .fnil, _ => some []
  | .fcons n e rest, plain =>
      match plain.lookup n with
      | none => none
      | some pv =>
          match buildE e pv, buildF rest plain with
          | some v, some vs => some ((n, v) :: vs)
          | _, _ => none
end

/-- Modelled from the spec: the Compiled Serializer cached on a concrete type
(`serializers.ModelSerializerFactory.RootSerializer`): the resolved root tag
and the ordered field plan. -/
structure RootSerializer where
  rootTag : String
  fields : Fields

/-- Runtime error classes observable from the embedded methods: a failed
`assert` statement, `errors.ModelError`, and the validation engine's error. -/
inductive PyErr where
  | assertionFailed
  | modelError
  | validationFailed
deriving DecidableEq

/-- Modelled from the spec: `RootSerializer.serialize(None, self, ...)` creates
the root node for the record's own tag and emits every field into it. -/
def RootSerializer.serialize (p : RootSerializer) (v : Value) : Option Element :=
  match v with
  | .vRecord fvs => emitFields p.fields fvs (.mk p.rootTag [] none [])
  | _ => none

/-- Modelled from the spec: `RootSerializer.deserialize(root)` extracts the
plain nested structure from the tree. -/
def RootSerializer.deserialize (p : RootSerializer) (root : Element) : List (String × PlainVal) :=
  extractFields p.fields root.attrs root.children

/-- Embeds `BaseXmlModel.to_xml_tree` (model.py lines 235-258): assert the
serializer slot is set, serialize, assert the root exists, then — root node
only — if the model's nsmap is truthy and carries a truthy default-namespace
entry, set the explicit `xmlns` declaration attribute on the root. -/
def to_xml_tree (nsmap : Option NsMap) (ser : Option RootSerializer) (self : Value) : Except PyErr Element :=
  match ser with
  | none => .error .assertionFailed
  | some p =>
      match p.serialize self with
      | none => .error .assertionFailed
      | some root =>
          .ok
            (match nsmap with
             | none => root
             | some m =>
                 if m.isEmpty then root
                 else
                   match m.lookup "" with
                   | none => root
                   | some d => if d = "" then root else root.setAttr "xmlns" d)

/-- Embeds `BaseXmlModel.from_xml_tree` (model.py lines 211-222): assert the
serializer slot is set (`"model is partially initialized"`), extract the plain
structure, then validate it with `cls.parse_obj`. -/
def from_xml_tree (ser : Option RootSerializer) (root : Element) : Except PyErr Value :=
  match ser with
  | none => .error .assertionFailed
  | some p =>
      match buildF p.fields (p.deserialize root) with
      | none => .error .validationFailed
      | some fvs => .ok (.vRecord fvs)

/-- Embeds `BaseGenericXmlModel.from_xml_tree` (model.py lines 302-313): an
empty serializer slot raises `errors.ModelError` before any tree access;
otherwise the base implementation runs. -/
def generic_from_xml_tree (ser : Option RootSerializer) (root : Element) : Except PyErr Value :=
  match ser with
  | none => .error .modelError
  | some _ => from_xml_tree ser root

/-! ## Class declaration machinery -/

/-- Per-class xml configuration class variables `__xml_tag__`, `__xml_ns__`,
`__xml_nsmap__`, `__xml_ns_attrs__` (model.py lines 172-175). -/
structure XmlClassVars where
  tag : Option String
  ns : Option String
  nsmap : Option NsMap
  ns_attrs : Bool
deriving DecidableEq

/-- Keyword arguments of a class declaration, with the python defaults
`tag=None, ns=None, nsmap=None, ns_attrs=False`. -/
structure DeclKwargs where
  tag : Option String
  ns : Option String
  nsmap : Option NsMap
  ns_attrs : Bool
deriving DecidableEq

/-- The all-omitted keyword arguments. -/
def defaultDeclKwargs : DeclKwargs := ⟨none, none, none, false⟩

/-- Embeds `BaseXmlModel.__init_subclass__` (model.py lines 178-201): the class
variables are assigned from the declaration's own keyword arguments
unconditionally; the parent class's values are never consulted. -/
def init_subclass (kw : DeclKwargs) : XmlClassVars :=
  ⟨kw.tag, kw.ns, kw.nsmap, kw.ns_attrs⟩

/-- State of one declared class: its declared parent, its xml class variables
(`none` for the abstract base, on which `__init_subclass__` never ran), whether
it inherits `BaseGenericXmlModel.__init_serializer__`, the current value of the
(pydantic-provided) `__concrete__` flag, whether it was produced by
`__class_getitem__`, the `__xml_serializer__` slot (`none` = never assigned,
`some none` = assigned `None`, `some (some p)` = compiled plan `p`), and how
often `__init_serializer__` ran and actually compiled. -/
structure ClassState where
  parent : Option Nat
  vars : Option XmlClassVars
  usesGenericInit : Bool
  concrete : Bool
  viaGetItem : Bool
  slot : Option (Option Nat)
  initCount : Nat
  compileCount : Nat
deriving DecidableEq

/-- Embeds `__init_serializer__` for both base classes (model.py lines 203-208
and 294-300): a class using the generic override whose `__concrete__` flag is
false gets its slot set to `None`; any other class compiles.  The Schema
Compiler (`serializers.ModelSerializerFactory.from_model`, modelled from the
spec) produces a fresh plan identified by the class it was compiled for. -/
def init_serializer (selfId : Nat) (c : ClassState) : ClassState :=
  if c.usesGenericInit && !c.concrete then
    { c with slot := some none, initCount := c.initCount + 1 }
  else
    { c with slot := some (some selfId), initCount := c.initCount + 1,
             compileCount := c.compileCount + 1 }

/-- One declaration event: a `class` statement (with its declaration keyword
arguments, whether the class inherits the generic `__init_serializer__`
override, and the `__concrete__` flag it sees), or a generic specialization
`Template[args]` (with whether the supplied arguments are all concrete). -/
inductive Decl where
  | clsDecl (parent : Option Nat) (kw : DeclKwargs) (usesGenericInit : Bool) (concrete : Bool)
  | getItem (templateId : Nat) (argsConcrete : Bool)
deriving DecidableEq

/-- Metaclass-level state: the `XmlModelMeta.__is_base_model_defined__` toggle
(model.py line 155) and every class declared so far, in declaration order. -/
structure MetaState where
  isBaseModelDefined : Bool
  classes : List ClassState
deriving DecidableEq

/-- Embeds `XmlModelMeta.__new__` (model.py lines 157-164) together with
`BaseGenericXmlModel.__class_getitem__` (model.py lines 284-292).  A class
statement runs `__init_subclass__` and then, unless it is the very first class
(the abstract base), `__init_serializer__`.  A specialization first creates the
concrete model through the metaclass (pydantic's `create_model`, modelled from
the spec: `__init_subclass__` runs with no keyword arguments and `__concrete__`
is still inherited as false), then pydantic marks it concrete, then lines
286-290 copy the template's four class variables by value and run
`__init_serializer__` once more. -/
def metaStep (st : MetaState) (d : Decl) : MetaState :=
  match d with
  | .clsDecl parent kw g conc =>
      if st.isBaseModelDefined then
        ⟨true, st.classes ++
          [init_serializer st.classes.length ⟨parent, some (init_subclass kw), g, conc, false, none, 0, 0⟩]⟩
      else
        ⟨true, st.classes ++ [⟨parent, none, g, conc, false, none, 0, 0⟩]⟩
  | .getItem tid argsConc =>
      match st.classes[tid]? with
      | none => st
      | some tmpl =>
          ⟨st.isBaseModelDefined,
           st.classes ++
             [init_serializer st.classes.length
               { (if st.isBaseModelDefined then
                    init_serializer st.classes.length
                      ⟨some tid, some (init_subclass defaultDeclKwargs), true, false, true,
                        none, 0, 0⟩
                  else
                    ⟨some tid, some (init_subclass defaultDeclKwargs), true, false, true,
                      none, 0, 0⟩) with
                 concrete := argsConc, vars := tmpl.vars }]⟩

/-- Run a sequence of declarations from the initial state (no class declared,
toggle unset). -/
def runDecls (ds : List Decl) : MetaState := ds.foldl metaStep ⟨false, []⟩

/-- A class is concrete for serializer-initialization purposes when it does not
use the generic override, or its `__concrete__` flag is set. -/
def isConcreteClass (c : ClassState) : Bool := !c.usesGenericInit || c.concrete


/-! ## Specification-level helper functions for the verification -/

/-- Scalar payload of a value (meaningful on scalar leaves). -/
def Value.asScalar : Value → ScalarVal
  | .vScalar s => s
  | _ => .vStr ""

/-- Boolean duplicate-freedom of a name list. -/
def nodupBool : List String → Bool
  | [] => true
  | s :: rest => !rest.contains s && nodupBool rest

/-- Names of the plan's fields, in declaration order. -/
def fieldNamesF : Fields → List String
  | .fnil => []
  | .fcons n _ rest => n :: fieldNamesF rest

/-- Resolved names of the plan's direct attribute entries, in order. -/
def attrNamesF : Fields → List String
  | .fnil => []
  | .fcons _ (.attrE name _) rest => name :: attrNamesF rest
  | .fcons _ _ rest => attrNamesF rest

/-- Attribute pairs (resolved name, encoded value) contributed by the plan's
direct attribute entries for a conforming instance. -/
def attrPairsF : Fields → List (String × Value) → List (String × String)
  | .fnil, _ => []
  | .fcons _ _ _, [] => []
  | .fcons _ (.attrE name _) rest, (_, v) :: vrest =>
      (name, encodeScalar v.asScalar) :: attrPairsF rest vrest
  | .fcons _ _ rest, _ :: vrest => attrPairsF rest vrest

/-- Whether an entity is a direct attribute binding. -/
def isAttrE : Entity → Bool
  | .attrE _ _ => true
  | _ => false

mutual
/-- Plain structure the extractor recovers from an emitted entity of a
conforming value: the scalar itself for codec-stable leaves, the recursively
extracted record for nested plans. -/
def plainOfE : Entity → Value → PlainVal
  | .attrE _ _, v => .pScalar v.asScalar
  | .elemS _ _, v => .pScalar v.asScalar
  | .elemN _ sub, .vRecord fvs => .pRec (plainOfF sub fvs)
  | .elemN _ _, _ => .pRec []
  | .wrap _ inner, v => plainOfE inner v
/-- Plain structure the extractor recovers from an emitted field plan. -/
def plainOfF : Fields → List (String × Value) → List (String × PlainVal)
  | .fnil, _ => []
  | .fcons _ _ _, [] => []
  | .fcons n e rest, (_, v) :: vrest => (n, plainOfE e v) :: plainOfF rest vrest
end

mutual
/-- A value conforms to an entity's declared shape: scalar leaves carry the
declared scalar kind and nested records conform field by field. -/
def conformsE : Entity → Value → Bool
  | .attrE _ k, .vScalar sv => decide (sv.kind = k)
  | .attrE _ _, _ => false
  | .elemS _ k, .vScalar sv => decide (sv.kind = k)
  | .elemS _ _, _ => false
  | .elemN _ sub, .vRecord fvs => conformsF sub fvs
  | .elemN _ _, _ => false
  | .wrap _ inner, v => conformsE inner v
/-- A record's field list conforms to a field plan: exactly the declared
fields, in declaration order, each conforming. -/
def conformsF : Fields → List (String × Value) → Bool
  | .fnil, vals => vals.isEmpty
  | .fcons _ _ _, [] => false
  | .fcons n e rest, (m, v) :: vrest => decide (m = n) && conformsE e v && conformsF rest vrest
end

mutual
/-- Well-formedness of nested plans inside an entity: every nested record
level has duplicate-free field names and duplicate-free resolved attribute
names (python field names are unique per class, and duplicate resolved
attribute names would collide in the attribute dictionary). -/
def wfE : Entity → Bool
  | .attrE _ _ => true
  | .elemS _ _ => true
  | .elemN _ sub => nodupBool (fieldNamesF sub) && nodupBool (attrNamesF sub) && wfF sub
  | .wrap _ inner => wfE inner
/-- Well-formedness of every entity of a field plan. -/
def wfF : Fields → Bool
  | .fnil => true
  | .fcons _ e rest => wfE e && wfF rest
end

/-- Well-formedness of a whole compiled plan: duplicate-free field names and
duplicate-free resolved attribute names at the root level and at every nested
record level. -/
def wfPlan (p : RootSerializer) : Bool :=
  nodupBool (fieldNamesF p.fields) && nodupBool (attrNamesF p.fields) && wfF p.fields

mutual
/-- Every resolved attribute name occurring anywhere inside an entity,
including inside nested plans and wrapped entities. -/
def deepAttrNamesE : Entity → List String
  | .attrE name _ => [name]
  | .elemS _ _ => []
  | .elemN _ sub => deepAttrNamesF sub
  | .wrap _ inner => deepAttrNamesE inner
/-- Every resolved attribute name occurring anywhere inside a field plan. -/
def deepAttrNamesF : Fields → List String
  | .fnil => []
  | .fcons _ e rest => deepAttrNamesE e ++ deepAttrNamesF rest
end

mutual
/-- No node of the tree carries an attribute with the given qualified name. -/
def Element.noAttrDeep (bad : String) : Element → Bool
  | .mk _ a _ ch => a.all (fun pr => !(pr.1 == bad)) && noAttrDeepList bad ch
/-- List form of `Element.noAttrDeep`. -/
def noAttrDeepList (bad : String) : List Element → Bool
  | [] => true
  | c :: rest => Element.noAttrDeep bad c && noAttrDeepList bad rest
end

/-- Per-class invariant of the state machine at index `i`: the class compiled
at most once; the abstract base (index 0) skipped initialization entirely and
its slot was never assigned; every later class declared by a `class` statement
ran `__init_serializer__` exactly once; a specialization compiled exactly once
when its arguments are concrete and never otherwise; a compiled plan is owned
by the class it was compiled for; every class after the base has its slot
assigned, to a plan exactly when the class is concrete. -/
def ClassInv (i : Nat) (c : ClassState) : Prop :=
  c.compileCount ≤ 1
  ∧ (i = 0 → c.compileCount = 0 ∧ c.initCount = 0 ∧ c.slot = none ∧ c.viaGetItem = false)
  ∧ (0 < i → c.viaGetItem = false → c.initCount = 1)
  ∧ (c.viaGetItem = true → c.compileCount = (if c.concrete then 1 else 0))
  ∧ (∀ q, c.slot = some (some q) → q = i)
  ∧ (0 < i → (if isConcreteClass c then ∃ q, c.slot = some (some q) else c.slot = some none))

/-- Master invariant of the class-declaration state machine: the metaclass
toggle mirrors whether the abstract base was declared; every class satisfies
its per-class invariant; and a specialization's class variables are the ones
copied by value from its template. -/
def MetaInv (st : MetaState) : Prop :=
  (st.isBaseModelDefined = !st.classes.isEmpty)
  ∧ (∀ (i : Nat) (c : ClassState), st.classes[i]? = some c → ClassInv i c)
  ∧ (∀ (i : Nat) (c : ClassState), st.classes[i]? = some c → c.viaGetItem = true →
      ∃ tid tmpl, c.parent = some tid ∧ st.classes[tid]? = some tmpl ∧ c.vars = tmpl.vars)

/-! ## Concrete data for witnesses and counterexamples -/

/-- Spec section 8 scenario: `{ id: Attribute(name="id"), name: Element(tag="Name") }`. -/
def adaPlan : RootSerializer :=
  ⟨"Root", .fcons "id" (.attrE "id" .sInt) (.fcons "name" (.elemS "Name" .sStr) .fnil)⟩

/-- Spec section 8 scenario instance `{id: 7, name: "Ada"}`. -/
def adaFields : List (String × Value) :=
  [("id", .vScalar (.vInt 7)), ("name", .vScalar (.vStr "Ada"))]

/-- A plan whose two attribute-bound fields share the resolved attribute name. -/
def dupAttrPlan : RootSerializer :=
  ⟨"Root", .fcons "f1" (.attrE "a" .sStr) (.fcons "f2" (.attrE "a" .sStr) .fnil)⟩

/-- A valid instance of the duplicate-attribute-name record type. -/
def dupAttrVal : Value :=
  .vRecord [("f1", .vScalar (.vStr "1")), ("f2", .vScalar (.vStr "2"))]

/-- Base declaration, a parent declared with an explicit tag, and a child of
that parent declared with no keyword arguments. -/
def inheritDecls : List Decl :=
  [.clsDecl none defaultDeclKwargs false true,
   .clsDecl (some 0) ⟨some "parent-tag", none, none, false⟩ false true,
   .clsDecl (some 1) defaultDeclKwargs false true]

/-- Base declaration followed by a generic template declaration. -/
def templateDecls : List Decl :=
  [.clsDecl none defaultDeclKwargs false true,
   .clsDecl (some 0) ⟨some "box", none, none, false⟩ true false]

/-- The declared template's class state: tagged `box`, generic, not concrete,
slot explicitly `None`, initialized once, never compiled. -/
def templateClass : ClassState :=
  ⟨some 0, some ⟨some "box", none, none, false⟩, true, false, false, some none, 1, 0⟩

/-- A model nsmap whose default-namespace entry carries the empty URI. -/
def emptyUriNsmap : NsMap := [("", "")]

/-- Plan with one scalar element child, used to observe the root-only xmlns step. -/
def nsPlan : RootSerializer := ⟨"Root", .fcons "name" (.elemS "Name" .sStr) .fnil⟩

/-! ## Lemmas: scalar codec round trip -/

theorem digitsRevAux_ofDigits (fuel n : Nat) (h : n ≤ fuel) :
    ofDigitsRev (digitsRevAux fuel n) = n := by
  match fuel, n with
  | 0, n =>
      have : n = 0 := by omega
      subst this
      rfl
  | f + 1, 0 => rfl
  | f + 1, n + 1 =>
      have hdiv : (n + 1) / 10 ≤ f := by
        have := Nat.div_lt_self (Nat.succ_pos n) (by norm_num : 1 < 10)
        omega
      have ih := digitsRevAux_ofDigits f ((n + 1) / 10) hdiv
      simp only [digitsRevAux, ofDigitsRev, ih]
      omega

theorem digitsRevAux_lt (fuel n : Nat) : ∀ d ∈ digitsRevAux fuel n, d < 10 := by
  match fuel, n with
  | 0, n => simp [digitsRevAux]
  | f + 1, 0 => simp [digitsRevAux]
  | f + 1, n + 1 =>
      intro d hd
      simp only [digitsRevAux, List.mem_cons] at hd
      rcases hd with h | h
      · omega
      · exact digitsRevAux_lt f ((n + 1) / 10) d h

theorem digitsRevAux_ne_nil (fuel n : Nat) (h1 : 0 < n) (h2 : n ≤ fuel) :
    digitsRevAux fuel n ≠ [] := by
  match fuel, n with
  | 0, n => omega
  | f + 1, 0 => omega
  | f + 1, n + 1 => simp [digitsRevAux]

theorem charDigit_digitChar (d : Nat) (h : d < 10) :
    charDigit (Nat.digitChar d) = some d := by
  interval_cases d <;> decide

theorem digitChar_ne_dash (d : Nat) (h : d < 10) : Nat.digitChar d ≠ '-' := by
  interval_cases d <;> decide

theorem parseDigits_digitChars (ds : List Nat) (h : ∀ d ∈ ds, d < 10) :
    parseDigits (ds.map Nat.digitChar) = some ds := by
  induction ds with
  | nil => rfl
  | cons d rest ih =>
      have hd : d < 10 := h d (by simp)
      have hrest := ih (fun x hx => h x (by simp [hx]))
      simp [parseDigits, charDigit_digitChar d hd, hrest]

theorem decodeNatChars_encodeNat (n : Nat) : decodeNatChars (encodeNat n).data = some n := by
  by_cases h : n = 0
  · subst h; decide
  · have hlt : ∀ d ∈ (digitsRevAux n n).reverse, d < 10 :=
      fun d hd => digitsRevAux_lt n n d (List.mem_reverse.mp hd)
    have hne : (digitsRevAux n n).reverse ≠ [] := by
      intro hh
      exact digitsRevAux_ne_nil n n (Nat.pos_of_ne_zero h) le_rfl (by simpa using hh)
    have hdata : (encodeNat n).data = ((digitsRevAux n n).reverse).map Nat.digitChar := by
      unfold encodeNat
      rw [if_neg h]
    rw [hdata]
    simp only [decodeNatChars, parseDigits_digitChars _ hlt]
    rw [if_neg (by simpa [List.isEmpty_iff] using hne)]
    rw [List.reverse_reverse]
    rw [digitsRevAux_ofDigits n n le_rfl]

theorem encodeNat_data_ne_nil (n : Nat) : (encodeNat n).data ≠ [] := by
  by_cases h : n = 0
  · subst h; decide
  · have hdata : (encodeNat n).data = ((digitsRevAux n n).reverse).map Nat.digitChar := by
      simp [encodeNat, h]
    rw [hdata]
    intro hh
    exact digitsRevAux_ne_nil n n (Nat.pos_of_ne_zero h) le_rfl
      (by simpa using List.map_eq_nil_iff.mp hh)

theorem encodeNat_data_no_dash (n : Nat) : ∀ c ∈ (encodeNat n).data, c ≠ '-' := by
  by_cases h : n = 0
  · subst h; decide
  · have hdata : (encodeNat n).data = ((digitsRevAux n n).reverse).map Nat.digitChar := by
      simp [encodeNat, h]
    rw [hdata]
    intro c hc
    rcases List.mem_map.mp hc with ⟨d, hd, rfl⟩
    exact digitChar_ne_dash d (digitsRevAux_lt n n d (List.mem_reverse.mp hd))

theorem decodeIntChars_cons (c : Char) (rest : List Char) :
    decodeIntChars (c :: rest) =
      if c = '-' then (decodeNatChars rest).map (fun n => -(n : Int))
      else (decodeNatChars (c :: rest)).map (fun n => (n : Int)) := rfl

theorem decodeInt_encodeInt (i : Int) : decodeInt (encodeInt i) = some i := by
  by_cases h : i < 0
  · have hdata : (encodeInt i).data = '-' :: (encodeNat i.natAbs).data := by
      unfold encodeInt
      rw [if_pos h]
      rfl
    rw [decodeInt, hdata, decodeIntChars_cons, if_pos rfl]
    rw [decodeNatChars_encodeNat]
    show some (-(i.natAbs : Int)) = some i
    congr 1
    omega
  · have hdata : (encodeInt i).data = (encodeNat i.toNat).data := by
      unfold encodeInt
      rw [if_neg h]
    rcases hcs : (encodeNat i.toNat).data with _ | ⟨c, cs⟩
    · exact absurd hcs (encodeNat_data_ne_nil i.toNat)
    · have hcne : c ≠ '-' := encodeNat_data_no_dash i.toNat c (by simp [hcs])
      rw [decodeInt, hdata, hcs, decodeIntChars_cons, if_neg hcne]
      rw [← hcs, decodeNatChars_encodeNat]
      show some ((i.toNat : Nat) : Int) = some i
      congr 1
      omega

theorem decodeScalar_encodeScalar (v : ScalarVal) :
    decodeScalar v.kind (encodeScalar v) = some v := by
  cases v with
  | vInt i => simp [decodeScalar, encodeScalar, ScalarVal.kind, decodeInt_encodeInt]
  | vStr s => rfl
  | vBool b => cases b <;> decide

/-! ## Lemmas: association lists -/

theorem lookup_nil_none {β : Type} (k : String) : ([] : List (String × β)).lookup k = none := rfl

theorem lookup_cons {β : Type} (k0 : String) (v0 : β) (rest : List (String × β)) (k : String) :
    ((k0, v0) :: rest).lookup k = if k0 = k then some v0 else rest.lookup k := by
  by_cases hk : k0 = k
  · subst hk
    simp [List.lookup]
  · have hb : (k == k0) = false := by simpa using fun hh => hk hh.symm
    simp [List.lookup, hb, hk]

theorem lookup_append_left {β : Type} (l m : List (String × β)) (k : String) (v : β)
    (h : l.lookup k = some v) : (l ++ m).lookup k = some v := by
  induction l with
  | nil => simp [List.lookup] at h
  | cons p rest ih =>
      obtain ⟨k0, v0⟩ := p
      rw [List.cons_append, lookup_cons]
      rw [lookup_cons] at h
      by_cases hk : k0 = k
      · rwa [if_pos hk] at h ⊢
      · rw [if_neg hk] at h ⊢
        exact ih h

theorem lookup_append_none {β : Type} (l m : List (String × β)) (k : String)
    (h : l.lookup k = none) : (l ++ m).lookup k = m.lookup k := by
  induction l with
  | nil => rfl
  | cons p rest ih =>
      obtain ⟨k0, v0⟩ := p
      rw [List.cons_append, lookup_cons]
      rw [lookup_cons] at h
      by_cases hk : k0 = k
      · rw [if_pos hk] at h; exact absurd h (by simp)
      · rw [if_neg hk] at h ⊢
        exact ih h

theorem lookup_none_of_not_contains {β : Type} (l : List (String × β)) (k : String)
    (h : (l.map Prod.fst).contains k = false) : l.lookup k = none := by
  induction l with
  | nil => rfl
  | cons p rest ih =>
      obtain ⟨k0, v0⟩ := p
      have hnm : k ∉ List.map Prod.fst ((k0, v0) :: rest) := by
        intro hm
        have hc : (List.map Prod.fst ((k0, v0) :: rest)).contains k = true :=
          List.elem_iff.mpr hm
        rw [h] at hc
        simp at hc
      have hk : k0 ≠ k := by
        intro hkk
        exact hnm (by simp [hkk])
      have hrest : (rest.map Prod.fst).contains k = false := by
        cases hc : (rest.map Prod.fst).contains k
        · rfl
        · exact absurd (List.elem_iff.mp hc) (fun hm => hnm (by simp [hm]))
      rw [lookup_cons, if_neg hk]
      exact ih hrest

theorem lookup_of_mem_nodup {β : Type} (l : List (String × β)) (k : String) (v : β)
    (hmem : (k, v) ∈ l) (hnd : nodupBool (l.map Prod.fst) = true) : l.lookup k = some v := by
  induction l with
  | nil => simp at hmem
  | cons p rest ih =>
      obtain ⟨k0, v0⟩ := p
      simp only [List.map_cons, nodupBool, Bool.and_eq_true, Bool.not_eq_true'] at hnd
      rcases List.mem_cons.mp hmem with heq | hmem2
      · injection heq with h1 h2
        subst h1
        subst h2
        rw [lookup_cons, if_pos rfl]
      · rw [lookup_cons]
        have hk : k0 ≠ k := by
          intro hkk
          subst hkk
          have hm : k0 ∈ rest.map Prod.fst := List.mem_map.mpr ⟨(k0, v), hmem2, rfl⟩
          have hcon : (rest.map Prod.fst).contains k0 = true := List.elem_iff.mpr hm
          rw [hnd.1] at hcon
          exact absurd hcon (by simp)
        rw [if_neg hk]
        exact ih hmem2 hnd.2

theorem setPairs_fresh (l : List (String × String)) (k v : String)
    (h : l.lookup k = none) : setPairs l k v = l ++ [(k, v)] := by
  induction l with
  | nil => rfl
  | cons p rest ih =>
      obtain ⟨k0, v0⟩ := p
      rw [lookup_cons] at h
      by_cases hk : k0 = k
      · rw [if_pos hk] at h; exact absurd h (by simp)
      · rw [if_neg hk] at h
        simp [setPairs, hk, ih h]

/-! ## Lemmas: names and shapes of compiled plans -/

theorem contains_append_false (l1 l2 : List String) (a : String)
    (h : (l1 ++ l2).contains a = false) :
    l1.contains a = false ∧ l2.contains a = false := by
  have hm : a ∉ l1 ++ l2 := by
    intro hmem
    have hc : (l1 ++ l2).contains a = true := List.elem_iff.mpr hmem
    rw [h] at hc
    simp at hc
  constructor
  · cases hc : l1.contains a
    · rfl
    · exact absurd (List.mem_append_left l2 (List.elem_iff.mp hc)) hm
  · cases hc : l2.contains a
    · rfl
    · exact absurd (List.mem_append_right l1 (List.elem_iff.mp hc)) hm

theorem not_contains_of_not_mem (l : List String) (a : String) (h : a ∉ l) :
    l.contains a = false := by
  cases hc : l.contains a
  · rfl
  · exact absurd (List.elem_iff.mp hc) h

theorem ne_of_not_contains_cons (x a : String) (l : List String)
    (h : (x :: l).contains a = false) : a ≠ x ∧ l.contains a = false := by
  have hm : a ∉ x :: l := by
    intro hmem
    have hc : (x :: l).contains a = true := List.elem_iff.mpr hmem
    rw [h] at hc
    simp at hc
  refine ⟨fun he => hm (by simp [he]), ?_⟩
  exact not_contains_of_not_mem _ _ (fun hmem => hm (by simp [hmem]))

theorem nodupBool_cons (x : String) (l : List String) (h : nodupBool (x :: l) = true) :
    l.contains x = false ∧ nodupBool l = true := by
  simpa [nodupBool, Bool.and_eq_true, Bool.not_eq_true'] using h

theorem conformsF_keys (fs : Fields) (fvs : List (String × Value)) (h : conformsF fs fvs = true) :
    fvs.map Prod.fst = fieldNamesF fs := by
  match fs, fvs with
  | .fnil, fvs =>
      have : fvs = [] := by simpa [conformsF, List.isEmpty_iff] using h
      subst this
      rfl
  | .fcons n e rest, [] => simp [conformsF] at h
  | .fcons n e rest, (m, v) :: vrest =>
      simp only [conformsF, Bool.and_eq_true, decide_eq_true_eq] at h
      obtain ⟨⟨hm, hce⟩, hcf⟩ := h
      simp [fieldNamesF, conformsF_keys rest vrest hcf, hm]

theorem conformsF_destruct (n : String) (e : Entity) (rest : Fields)
    (fvs : List (String × Value)) (h : conformsF (.fcons n e rest) fvs = true) :
    ∃ v vrest, fvs = (n, v) :: vrest ∧ conformsE e v = true ∧ conformsF rest vrest = true := by
  match fvs with
  | [] => simp [conformsF] at h
  | (m, v) :: vrest =>
      simp only [conformsF, Bool.and_eq_true, decide_eq_true_eq] at h
      obtain ⟨⟨hm, hce⟩, hcf⟩ := h
      subst hm
      exact ⟨v, vrest, rfl, hce, hcf⟩

theorem attrPairsF_keys (fs : Fields) (fvs : List (String × Value)) (h : conformsF fs fvs = true) :
    (attrPairsF fs fvs).map Prod.fst = attrNamesF fs := by
  match fs, fvs with
  | .fnil, fvs => rfl
  | .fcons n e rest, [] => simp [conformsF] at h
  | .fcons n e rest, (m, v) :: vrest =>
      simp only [conformsF, Bool.and_eq_true, decide_eq_true_eq] at h
      obtain ⟨⟨hm, hce⟩, hcf⟩ := h
      cases e with
      | attrE name k => simp [attrPairsF, attrNamesF, attrPairsF_keys rest vrest hcf]
      | elemS tag k => simp [attrPairsF, attrNamesF, attrPairsF_keys rest vrest hcf]
      | elemN tag sub => simp [attrPairsF, attrNamesF, attrPairsF_keys rest vrest hcf]
      | wrap seg inner => simp [attrPairsF, attrNamesF, attrPairsF_keys rest vrest hcf]

theorem plainOfF_keys (fs : Fields) (fvs : List (String × Value)) (h : conformsF fs fvs = true) :
    (plainOfF fs fvs).map Prod.fst = fieldNamesF fs := by
  match fs, fvs with
  | .fnil, fvs => rfl
  | .fcons n e rest, [] => simp [conformsF] at h
  | .fcons n e rest, (m, v) :: vrest =>
      simp only [conformsF, Bool.and_eq_true, decide_eq_true_eq] at h
      obtain ⟨⟨hm, hce⟩, hcf⟩ := h
      simp [plainOfF, fieldNamesF, plainOfF_keys rest vrest hcf]

theorem attrNames_deep (fs : Fields) (a : String)
    (h : (deepAttrNamesF fs).contains a = false) : (attrNamesF fs).contains a = false := by
  match fs with
  | .fnil => rfl
  | .fcons n e rest =>
      have hsplit := contains_append_false _ _ _ (by simpa [deepAttrNamesF] using h)
      have hrest := attrNames_deep rest a hsplit.2
      cases e with
      | attrE name k =>
          have hne := (ne_of_not_contains_cons name a [] (by simpa [deepAttrNamesE] using hsplit.1)).1
          rw [show attrNamesF (.fcons n (.attrE name k) rest) = name :: attrNamesF rest from rfl]
          exact not_contains_of_not_mem _ _ (by
            intro hmem
            rcases List.mem_cons.mp hmem with he | hmem2
            · exact hne he
            · have hc : (attrNamesF rest).contains a = true := List.elem_iff.mpr hmem2
              rw [hrest] at hc
              simp at hc)
      | elemS tag k => simpa [attrNamesF] using hrest
      | elemN tag sub => simpa [attrNamesF] using hrest
      | wrap seg inner => simpa [attrNamesF] using hrest

theorem all_ne_of_keys_not_contains (l : List (String × String)) (names : List String) (bad : String)
    (hk : l.map Prod.fst = names) (hb : names.contains bad = false) :
    (l.all fun pr => !(pr.1 == bad)) = true := by
  rw [List.all_eq_true]
  intro pr hpr
  have hmem : pr.1 ∈ names := hk ▸ List.mem_map.mpr ⟨pr, hpr, rfl⟩
  have hne : pr.1 ≠ bad := by
    intro he
    subst he
    have hc : names.contains pr.1 = true := List.elem_iff.mpr hmem
    rw [hb] at hc
    simp at hc
  simpa using hne

theorem noAttrDeepList_of_forall (bad : String) (D : List Element)
    (h : ∀ c ∈ D, Element.noAttrDeep bad c = true) : noAttrDeepList bad D = true := by
  induction D with
  | nil => rfl
  | cons c rest ih =>
      rw [show noAttrDeepList bad (c :: rest) =
            (Element.noAttrDeep bad c && noAttrDeepList bad rest) from rfl]
      rw [h c (by simp), ih (fun x hx => h x (by simp [hx]))]
      rfl

theorem element_eta (el : Element) : Element.mk el.tag el.attrs el.text el.children = el := by
  cases el
  rfl

theorem isAttrE_true (e : Entity) (h : isAttrE e = true) : ∃ name k, e = .attrE name k := by
  cases e with
  | attrE name k => exact ⟨name, k, rfl⟩
  | elemS t k => simp [isAttrE] at h
  | elemN t s => simp [isAttrE] at h
  | wrap s i => simp [isAttrE] at h

/-! ## Main induction: the emitted tree of a conforming instance extracts back
to the decoded plain structure -/

mutual
theorem emitEntityCorrect (e : Entity) (v : Value) (hwf : wfE e = true) (hc : conformsE e v = true) :
    (∀ name k, e = .attrE name k →
      ∃ sv, v = .vScalar sv ∧ sv.kind = k ∧
        ∀ node, emitEntity e v node = some (node.setAttr name (encodeScalar sv)))
    ∧ (isAttrE e = false →
        ∀ node, ∃ c, emitEntity e v node = some (node.addChild c)
          ∧ (∀ A rest, extractEntity e A (c :: rest) = (some (plainOfE e v), rest))
          ∧ (∀ bad, (deepAttrNamesE e).contains bad = false →
              Element.noAttrDeep bad c = true)) := by
  cases e with
  | attrE name0 k0 =>
      constructor
      · intro name k heq
        injection heq with h1 h2
        subst h1
        subst h2
        cases v with
        | vScalar sv =>
            exact ⟨sv, rfl, by simpa [conformsE] using hc, fun node => rfl⟩
        | vRecord fvs => simp [conformsE] at hc
      · intro hfalse
        simp [isAttrE] at hfalse
  | elemS tag0 k0 =>
      refine ⟨fun name k heq => Entity.noConfusion heq, ?_⟩
      intro _ node
      cases v with
      | vRecord fvs => simp [conformsE] at hc
      | vScalar sv =>
          have hkind : sv.kind = k0 := by simpa [conformsE] using hc
          refine ⟨Element.mk tag0 [] (some (encodeScalar sv)) [], rfl, ?_, ?_⟩
          · intro A rest
            rw [show extractEntity (.elemS tag0 k0) A
                  (Element.mk tag0 [] (some (encodeScalar sv)) [] :: rest) =
                (match extractFirst tag0 (Element.mk tag0 [] (some (encodeScalar sv)) [] :: rest) with
                 | none => (none, Element.mk tag0 [] (some (encodeScalar sv)) [] :: rest)
                 | some (c, rest2) =>
                     ((decodeScalar k0 (c.text.getD "")).map PlainVal.pScalar, rest2)) from rfl]
            rw [show extractFirst tag0 (Element.mk tag0 [] (some (encodeScalar sv)) [] :: rest) =
                some (Element.mk tag0 [] (some (encodeScalar sv)) [], rest) from by
              simp [extractFirst, Element.tag]]
            show ((decodeScalar k0 (encodeScalar sv)).map PlainVal.pScalar, rest) = _
            rw [← hkind, decodeScalar_encodeScalar]
            rfl
          · intro bad hbad
            rfl
  | elemN tag0 sub =>
      refine ⟨fun name k heq => Entity.noConfusion heq, ?_⟩
      intro _ node
      cases v with
      | vScalar sv => simp [conformsE] at hc
      | vRecord gvs =>
          have hcsub : conformsF sub gvs = true := by simpa [conformsE] using hc
          have hwfe : (nodupBool (fieldNamesF sub) && nodupBool (attrNamesF sub) && wfF sub) = true := by
            simpa [wfE] using hwf
          simp only [Bool.and_eq_true] at hwfe
          obtain ⟨⟨hnf, hna⟩, hwfsub⟩ := hwfe
          have hvag : ∀ pr ∈ gvs, gvs.lookup pr.1 = some pr.2 := by
            intro pr hpr
            have hkeys : gvs.map Prod.fst = fieldNamesF sub := conformsF_keys sub gvs hcsub
            exact lookup_of_mem_nodup gvs pr.1 pr.2 (by simpa using hpr) (by rw [hkeys]; exact hnf)
          obtain ⟨D, hemit, hextr, hno⟩ :=
            emitFieldsCorrect sub gvs gvs (Element.mk tag0 [] none []) hwfsub hna hcsub hvag
              (fun m hm => rfl)
          refine ⟨Element.mk tag0 (attrPairsF sub gvs) none D, ?_, ?_, ?_⟩
          · rw [show emitEntity (.elemN tag0 sub) (.vRecord gvs) node =
                 (match emitFields sub gvs (Element.mk tag0 [] none []) with
                  | none => none
                  | some c => some (node.addChild c)) from rfl]
            rw [hemit]
            rfl
          · intro A rest
            rw [show extractEntity (.elemN tag0 sub) A
                  (Element.mk tag0 (attrPairsF sub gvs) none D :: rest) =
                (match extractFirst tag0 (Element.mk tag0 (attrPairsF sub gvs) none D :: rest) with
                 | none => (none, Element.mk tag0 (attrPairsF sub gvs) none D :: rest)
                 | some (c, rest2) =>
                     (some (.pRec (extractFields sub c.attrs c.children)), rest2)) from rfl]
            rw [show extractFirst tag0 (Element.mk tag0 (attrPairsF sub gvs) none D :: rest) =
                some (Element.mk tag0 (attrPairsF sub gvs) none D, rest) from by
              simp [extractFirst, Element.tag]]
            have hAp : ∀ pr ∈ attrPairsF sub gvs, (attrPairsF sub gvs).lookup pr.1 = some pr.2 := by
              intro pr hpr
              exact lookup_of_mem_nodup _ pr.1 pr.2 (by simpa using hpr)
                (by rw [attrPairsF_keys sub gvs hcsub]; exact hna)
            have hx := hextr (attrPairsF sub gvs) [] hAp
            rw [List.append_nil] at hx
            show (some (PlainVal.pRec (extractFields sub (attrPairsF sub gvs) D)), rest) = _
            rw [hx]
            rfl
          · intro bad hbad
            have hbad2 : (deepAttrNamesF sub).contains bad = false := hbad
            rw [show Element.noAttrDeep bad (Element.mk tag0 (attrPairsF sub gvs) none D) =
                 (((attrPairsF sub gvs).all fun pr => !(pr.1 == bad)) && noAttrDeepList bad D)
                 from rfl]
            rw [all_ne_of_keys_not_contains _ _ bad (attrPairsF_keys sub gvs hcsub)
                  (attrNames_deep sub bad hbad2)]
            rw [hno bad hbad2]
            rfl
  | wrap seg inner =>
      refine ⟨fun name k heq => Entity.noConfusion heq, ?_⟩
      intro _ node
      have hwfi : wfE inner = true := by simpa [wfE] using hwf
      have hci : conformsE inner v = true := by simpa [conformsE] using hc
      have IH := emitEntityCorrect inner v hwfi hci
      cases hattr : isAttrE inner with
      | true =>
          obtain ⟨name, k, rfl⟩ := isAttrE_true inner hattr
          obtain ⟨sv, rfl, hkind, hemitA⟩ := IH.1 name k rfl
          refine ⟨Element.mk seg [(name, encodeScalar sv)] none [], ?_, ?_, ?_⟩
          · rw [show emitEntity (.wrap seg (.attrE name k)) (.vScalar sv) node =
                (match emitEntity (.attrE name k) (.vScalar sv) (Element.mk seg [] none []) with
                 | none => none
                 | some c => some (node.addChild c)) from rfl]
            rw [hemitA (Element.mk seg [] none [])]
            rfl
          · intro A rest
            rw [show extractEntity (.wrap seg (.attrE name k)) A
                  (Element.mk seg [(name, encodeScalar sv)] none [] :: rest) =
                (match extractFirst seg (Element.mk seg [(name, encodeScalar sv)] none [] :: rest) with
                 | none => (none, Element.mk seg [(name, encodeScalar sv)] none [] :: rest)
                 | some (c, rest2) =>
                     ((extractEntity (.attrE name k) c.attrs c.children).1, rest2)) from rfl]
            rw [show extractFirst seg (Element.mk seg [(name, encodeScalar sv)] none [] :: rest) =
                some (Element.mk seg [(name, encodeScalar sv)] none [], rest) from by
              simp [extractFirst, Element.tag]]
            have hlk : ([(name, encodeScalar sv)] : List (String × String)).lookup name =
                some (encodeScalar sv) := by
              rw [lookup_cons, if_pos rfl]
            show (((([(name, encodeScalar sv)] : List (String × String)).lookup name).bind
                (decodeScalar k)).map PlainVal.pScalar, rest) = _
            rw [hlk]
            show ((decodeScalar k (encodeScalar sv)).map PlainVal.pScalar, rest) = _
            rw [← hkind, decodeScalar_encodeScalar]
            rfl
          · intro bad hbad
            have hne := (ne_of_not_contains_cons name bad []
              (by simpa [deepAttrNamesE] using hbad)).1
            have hb : (name == bad) = false := by simpa using fun hh => hne hh.symm
            rw [show Element.noAttrDeep bad (Element.mk seg [(name, encodeScalar sv)] none []) =
                 ((([(name, encodeScalar sv)] : List (String × String)).all
                    fun pr => !(pr.1 == bad)) && noAttrDeepList bad []) from rfl]
            simp [List.all_cons, hb]
            rfl
      | false =>
          obtain ⟨c0, hemit0, hex0, hno0⟩ := IH.2 hattr (Element.mk seg [] none [])
          refine ⟨Element.mk seg [] none [c0], ?_, ?_, ?_⟩
          · rw [show emitEntity (.wrap seg inner) v node =
                (match emitEntity inner v (Element.mk seg [] none []) with
                 | none => none
                 | some c => some (node.addChild c)) from rfl]
            rw [hemit0]
            rfl
          · intro A rest
            rw [show extractEntity (.wrap seg inner) A (Element.mk seg [] none [c0] :: rest) =
                (match extractFirst seg (Element.mk seg [] none [c0] :: rest) with
                 | none => (none, Element.mk seg [] none [c0] :: rest)
                 | some (c, rest2) => ((extractEntity inner c.attrs c.children).1, rest2))
                from rfl]
            rw [show extractFirst seg (Element.mk seg [] none [c0] :: rest) =
                some (Element.mk seg [] none [c0], rest) from by
              simp [extractFirst, Element.tag]]
            show ((extractEntity inner [] [c0]).1, rest) = _
            rw [hex0 [] []]
            rfl
          · intro bad hbad
            have h0 := hno0 bad (by simpa [deepAttrNamesE] using hbad)
            rw [show Element.noAttrDeep bad (Element.mk seg [] none [c0]) =
                 ((([] : List (String × String)).all fun pr => !(pr.1 == bad)) &&
                   noAttrDeepList bad [c0]) from rfl]
            rw [show noAttrDeepList bad [c0] =
                 (Element.noAttrDeep bad c0 && noAttrDeepList bad []) from rfl]
            rw [h0]
            rfl

termination_by sizeOf e

theorem emitFieldsCorrect (fs : Fields) (fvs vals : List (String × Value)) (node : Element)
    (hwf : wfF fs = true) (hnd : nodupBool (attrNamesF fs) = true)
    (hc : conformsF fs fvs = true)
    (hv : ∀ pr ∈ fvs, vals.lookup pr.1 = some pr.2)
    (hfresh : ∀ m ∈ attrNamesF fs, node.attrs.lookup m = none) :
    ∃ D, emitFields fs vals node =
        some (.mk node.tag (node.attrs ++ attrPairsF fs fvs) node.text (node.children ++ D))
      ∧ (∀ A rest, (∀ pr ∈ attrPairsF fs fvs, A.lookup pr.1 = some pr.2) →
          extractFields fs A (D ++ rest) = plainOfF fs fvs)
      ∧ (∀ bad, (deepAttrNamesF fs).contains bad = false → noAttrDeepList bad D = true) := by
  cases fs with
  | fnil =>
      have hfvs : fvs = [] := by simpa [conformsF, List.isEmpty_iff] using hc
      subst hfvs
      refine ⟨[], ?_, ?_, ?_⟩
      · rw [show emitFields .fnil vals node = some node from rfl]
        rw [show attrPairsF .fnil ([] : List (String × Value)) = ([] : List (String × String))
            from rfl]
        rw [List.append_nil, List.append_nil, element_eta]
      · intro A rest hA
        rfl
      · intro bad hbad
        rfl
  | fcons n e rest =>
      obtain ⟨v, vrest, rfl, hce, hcf⟩ := conformsF_destruct n e rest fvs hc
      have hwfcons : (wfE e && wfF rest) = true := hwf
      simp only [Bool.and_eq_true] at hwfcons
      obtain ⟨hwfe, hwfrest⟩ := hwfcons
      have hlook : vals.lookup n = some v := hv (n, v) (by simp)
      have hvrest : ∀ pr ∈ vrest, vals.lookup pr.1 = some pr.2 := fun pr hpr => hv pr (by simp [hpr])
      have IH := emitEntityCorrect e v hwfe hce
      cases hattr : isAttrE e with
      | true =>
          obtain ⟨name, k, rfl⟩ := isAttrE_true e hattr
          obtain ⟨sv, rfl, hkind, hemitA⟩ := IH.1 name k rfl
          have hnames : attrNamesF (.fcons n (.attrE name k) rest) = name :: attrNamesF rest := rfl
          have hnd2 := nodupBool_cons name (attrNamesF rest) (by rwa [hnames] at hnd)
          have hfreshname : node.attrs.lookup name = none := hfresh name (by rw [hnames]; simp)
          have hpairs : attrPairsF (.fcons n (.attrE name k) rest) ((n, Value.vScalar sv) :: vrest) =
              (name, encodeScalar sv) :: attrPairsF rest vrest := rfl
          have hset : node.setAttr name (encodeScalar sv) =
              Element.mk node.tag (node.attrs ++ [(name, encodeScalar sv)]) node.text node.children := by
            rw [show node.setAttr name (encodeScalar sv) =
                Element.mk node.tag (setPairs node.attrs name (encodeScalar sv))
                  node.text node.children from rfl]
            rw [setPairs_fresh node.attrs name (encodeScalar sv) hfreshname]
          have hfresh2 : ∀ m ∈ attrNamesF rest,
              (Element.mk node.tag (node.attrs ++ [(name, encodeScalar sv)])
                node.text node.children).attrs.lookup m = none := by
            intro m hm
            show (node.attrs ++ [(name, encodeScalar sv)]).lookup m = none
            rw [lookup_append_none _ _ _ (hfresh m (by rw [hnames]; simp [hm]))]
            have hne : name ≠ m := by
              intro he
              subst he
              have hcm : (attrNamesF rest).contains name = true := List.elem_iff.mpr hm
              rw [hnd2.1] at hcm
              simp at hcm
            rw [lookup_cons, if_neg hne]
            rfl
          obtain ⟨D, hemit2, hex2, hno2⟩ :=
            emitFieldsCorrect rest vrest vals
              (Element.mk node.tag (node.attrs ++ [(name, encodeScalar sv)]) node.text node.children)
              hwfrest hnd2.2 hcf hvrest hfresh2
          refine ⟨D, ?_, ?_, ?_⟩
          · rw [show emitFields (.fcons n (.attrE name k) rest) vals node =
                (match vals.lookup n with
                 | none => none
                 | some v2 =>
                     match emitEntity (.attrE name k) v2 node with
                     | none => none
                     | some node2 => emitFields rest vals node2) from rfl]
            rw [hlook]
            show (match emitEntity (.attrE name k) (Value.vScalar sv) node with
                  | none => none
                  | some node2 => emitFields rest vals node2) = _
            rw [hemitA node, hset]
            show emitFields rest vals
                (Element.mk node.tag (node.attrs ++ [(name, encodeScalar sv)])
                  node.text node.children) = _
            rw [hemit2]
            simp only [Element.tag, Element.attrs, Element.text, Element.children]
            rw [hpairs, List.append_assoc]
            rfl
          · intro A rest2 hA
            have hAname : A.lookup name = some (encodeScalar sv) :=
              hA (name, encodeScalar sv) (by rw [hpairs]; simp)
            rw [show extractFields (.fcons n (.attrE name k) rest) A (D ++ rest2) =
                (match extractEntity (.attrE name k) A (D ++ rest2) with
                 | (none, ch2) => extractFields rest A ch2
                 | (some pv, ch2) => (n, pv) :: extractFields rest A ch2) from rfl]
            rw [show extractEntity (.attrE name k) A (D ++ rest2) =
                (((A.lookup name).bind (decodeScalar k)).map PlainVal.pScalar, D ++ rest2)
                from rfl]
            rw [hAname]
            show (match ((decodeScalar k (encodeScalar sv)).map PlainVal.pScalar, D ++ rest2) with
                  | (none, ch2) => extractFields rest A ch2
                  | (some pv, ch2) => (n, pv) :: extractFields rest A ch2) = _
            rw [← hkind, decodeScalar_encodeScalar]
            show (n, PlainVal.pScalar sv) :: extractFields rest A (D ++ rest2) = _
            rw [hex2 A rest2 (fun pr hpr => hA pr (by rw [hpairs]; simp [hpr]))]
            rfl
          · intro bad hbad
            have hsplit := contains_append_false _ _ _
              (show (deepAttrNamesE (.attrE name k) ++ deepAttrNamesF rest).contains bad = false
                from hbad)
            exact hno2 bad hsplit.2
      | false =>
          obtain ⟨c, hemitc, hexc, hnoc⟩ := IH.2 hattr node
          have hnamesr : attrNamesF (.fcons n e rest) = attrNamesF rest := by
            cases e with
            | attrE _ _ => simp [isAttrE] at hattr
            | elemS _ _ => rfl
            | elemN _ _ => rfl
            | wrap _ _ => rfl
          have hpairsr : attrPairsF (.fcons n e rest) ((n, v) :: vrest) = attrPairsF rest vrest := by
            cases e with
            | attrE _ _ => simp [isAttrE] at hattr
            | elemS _ _ => rfl
            | elemN _ _ => rfl
            | wrap _ _ => rfl
          have hfresh2 : ∀ m ∈ attrNamesF rest, (node.addChild c).attrs.lookup m = none := by
            intro m hm
            show node.attrs.lookup m = none
            exact hfresh m (by rw [hnamesr]; exact hm)
          obtain ⟨D, hemit2, hex2, hno2⟩ :=
            emitFieldsCorrect rest vrest vals (node.addChild c) hwfrest
              (by rwa [hnamesr] at hnd) hcf hvrest hfresh2
          refine ⟨c :: D, ?_, ?_, ?_⟩
          · rw [show emitFields (.fcons n e rest) vals node =
                (match vals.lookup n with
                 | none => none
                 | some v2 =>
                     match emitEntity e v2 node with
                     | none => none
                     | some node2 => emitFields rest vals node2) from rfl]
            rw [hlook]
            show (match emitEntity e v node with
                  | none => none
                  | some node2 => emitFields rest vals node2) = _
            rw [hemitc]
            show emitFields rest vals (node.addChild c) = _
            rw [hemit2]
            simp only [Element.addChild, Element.tag, Element.attrs, Element.text, Element.children]
            rw [hpairsr, List.append_assoc]
            rfl
          · intro A rest2 hA
            rw [show extractFields (.fcons n e rest) A ((c :: D) ++ rest2) =
                (match extractEntity e A ((c :: D) ++ rest2) with
                 | (none, ch2) => extractFields rest A ch2
                 | (some pv, ch2) => (n, pv) :: extractFields rest A ch2) from rfl]
            rw [show (c :: D) ++ rest2 = c :: (D ++ rest2) from rfl]
            rw [hexc A (D ++ rest2)]
            show (n, plainOfE e v) :: extractFields rest A (D ++ rest2) = _
            rw [hex2 A rest2 (fun pr hpr => hA pr (by rw [hpairsr]; exact hpr))]
            rfl
          · intro bad hbad
            have hsplit := contains_append_false _ _ _
              (show (deepAttrNamesE e ++ deepAttrNamesF rest).contains bad = false from hbad)
            rw [show noAttrDeepList bad (c :: D) =
                 (Element.noAttrDeep bad c && noAttrDeepList bad D) from rfl]
            rw [hnoc bad hsplit.1, hno2 bad hsplit.2]
            rfl
termination_by sizeOf fs
end

/-! ## The Validation Bridge rebuilds the instance from the decoded plain structure -/

mutual
theorem buildECorrect (e : Entity) (v : Value) (hwf : wfE e = true) (hc : conformsE e v = true) :
    buildE e (plainOfE e v) = some v := by
  cases e with
  | attrE name k =>
      cases v with
      | vRecord fvs => simp [conformsE] at hc
      | vScalar sv =>
          have hkind : sv.kind = k := by simpa [conformsE] using hc
          rw [show plainOfE (.attrE name k) (.vScalar sv) = PlainVal.pScalar sv from rfl]
          rw [show buildE (.attrE name k) (.pScalar sv) =
              (if sv.kind = k then some (.vScalar sv) else none) from rfl]
          rw [if_pos hkind]
  | elemS tag k =>
      cases v with
      | vRecord fvs => simp [conformsE] at hc
      | vScalar sv =>
          have hkind : sv.kind = k := by simpa [conformsE] using hc
          rw [show plainOfE (.elemS tag k) (.vScalar sv) = PlainVal.pScalar sv from rfl]
          rw [show buildE (.elemS tag k) (.pScalar sv) =
              (if sv.kind = k then some (.vScalar sv) else none) from rfl]
          rw [if_pos hkind]
  | elemN tag sub =>
      cases v with
      | vScalar sv => simp [conformsE] at hc
      | vRecord gvs =>
          have hcsub : conformsF sub gvs = true := by simpa [conformsE] using hc
          have hwfe : (nodupBool (fieldNamesF sub) && nodupBool (attrNamesF sub) && wfF sub) = true := by
            simpa [wfE] using hwf
          simp only [Bool.and_eq_true] at hwfe
          obtain ⟨⟨hnf, hna⟩, hwfsub⟩ := hwfe
          rw [show plainOfE (.elemN tag sub) (.vRecord gvs) =
              PlainVal.pRec (plainOfF sub gvs) from rfl]
          rw [show buildE (.elemN tag sub) (.pRec (plainOfF sub gvs)) =
              (buildF sub (plainOfF sub gvs)).map Value.vRecord from rfl]
          rw [buildFCorrect sub gvs (plainOfF sub gvs) hwfsub hcsub (by
            intro pr hpr
            exact lookup_of_mem_nodup _ pr.1 pr.2 (by simpa using hpr)
              (by rw [plainOfF_keys sub gvs hcsub]; exact hnf))]
          rfl
  | wrap seg inner =>
      have hwfi : wfE inner = true := by simpa [wfE] using hwf
      have hci : conformsE inner v = true := by simpa [conformsE] using hc
      rw [show plainOfE (.wrap seg inner) v = plainOfE inner v from rfl]
      rw [show buildE (.wrap seg inner) (plainOfE inner v) = buildE inner (plainOfE inner v)
          from rfl]
      exact buildECorrect inner v hwfi hci
termination_by sizeOf e

theorem buildFCorrect (fs : Fields) (fvs : List (String × Value))
    (plain : List (String × PlainVal)) (hwf : wfF fs = true) (hc : conformsF fs fvs = true)
    (hagree : ∀ pr ∈ plainOfF fs fvs, plain.lookup pr.1 = some pr.2) :
    buildF fs plain = some fvs := by
  cases fs with
  | fnil =>
      have hfvs : fvs = [] := by simpa [conformsF, List.isEmpty_iff] using hc
      subst hfvs
      rfl
  | fcons n e rest =>
      obtain ⟨v, vrest, rfl, hce, hcf⟩ := conformsF_destruct n e rest fvs hc
      have hwfcons : (wfE e && wfF rest) = true := hwf
      simp only [Bool.and_eq_true] at hwfcons
      obtain ⟨hwfe, hwfrest⟩ := hwfcons
      have hplain : plainOfF (.fcons n e rest) ((n, v) :: vrest) =
          (n, plainOfE e v) :: plainOfF rest vrest := rfl
      have hlook : plain.lookup n = some (plainOfE e v) :=
        hagree (n, plainOfE e v) (by rw [hplain]; simp)
      rw [show buildF (.fcons n e rest) plain =
          (match plain.lookup n with
           | none => none
           | some pv =>
               match buildE e pv, buildF rest plain with
               | some v2, some vs => some ((n, v2) :: vs)
               | _, _ => none) from rfl]
      rw [hlook]
      show (match buildE e (plainOfE e v), buildF rest plain with
            | some v2, some vs => some ((n, v2) :: vs)
            | _, _ => none) = _
      rw [buildECorrect e v hwfe hce]
      rw [buildFCorrect rest vrest plain hwfrest hcf
            (fun pr hpr => hagree pr (by rw [hplain]; simp [hpr]))]
termination_by sizeOf fs
end

/-! ## Top-level round trip through `to_xml_tree` and `from_xml_tree` -/

theorem from_xml_tree_ok (p : RootSerializer) (fvs : List (String × Value))
    (t : String) (A : List (String × String)) (x : Option String) (D : List Element)
    (hnf : nodupBool (fieldNamesF p.fields) = true) (hwfF2 : wfF p.fields = true)
    (hc : conformsF p.fields fvs = true)
    (hextr : extractFields p.fields A D = plainOfF p.fields fvs) :
    from_xml_tree (some p) (.mk t A x D) = .ok (.vRecord fvs) := by
  rw [show from_xml_tree (some p) (.mk t A x D) =
      (match buildF p.fields (extractFields p.fields A D) with
       | none => .error .validationFailed
       | some fvs2 => .ok (.vRecord fvs2)) from rfl]
  rw [hextr]
  rw [buildFCorrect p.fields fvs (plainOfF p.fields fvs) hwfF2 hc (by
    intro pr hpr
    exact lookup_of_mem_nodup _ pr.1 pr.2 (by simpa using hpr)
      (by rw [plainOfF_keys p.fields fvs hc]; exact hnf))]

theorem serialize_shape (p : RootSerializer) (fvs : List (String × Value))
    (hnf : nodupBool (fieldNamesF p.fields) = true)
    (hna : nodupBool (attrNamesF p.fields) = true)
    (hwfF2 : wfF p.fields = true) (hc : conformsF p.fields fvs = true) :
    ∃ D, p.serialize (.vRecord fvs) = some (.mk p.rootTag (attrPairsF p.fields fvs) none D)
      ∧ (∀ A rest, (∀ pr ∈ attrPairsF p.fields fvs, A.lookup pr.1 = some pr.2) →
          extractFields p.fields A (D ++ rest) = plainOfF p.fields fvs)
      ∧ (∀ bad, (deepAttrNamesF p.fields).contains bad = false →
          noAttrDeepList bad D = true) := by
  have hvag : ∀ pr ∈ fvs, fvs.lookup pr.1 = some pr.2 := by
    intro pr hpr
    exact lookup_of_mem_nodup fvs pr.1 pr.2 (by simpa using hpr)
      (by rw [conformsF_keys p.fields fvs hc]; exact hnf)
  obtain ⟨D, hemit, hextr, hno⟩ :=
    emitFieldsCorrect p.fields fvs fvs (Element.mk p.rootTag [] none [])
      hwfF2 hna hc hvag (fun m hm => rfl)
  refine ⟨D, ?_, hextr, hno⟩
  rw [show p.serialize (.vRecord fvs) =
      emitFields p.fields fvs (Element.mk p.rootTag [] none []) from rfl]
  rw [hemit]
  rfl

/-- Claim C1, amended.  For every concrete record type composed only of scalar
and nested-record fields whose compiled plan is well formed (duplicate-free
field names and duplicate-free resolved attribute names at every record level,
which every real python class with distinct resolved attribute names
satisfies), and whose root level binds no attribute to the reserved `xmlns`
declaration name, deserializing the tree produced by serializing a valid
instance (omit_empty/skip_empty not in play) yields the instance itself, for
any model nsmap. -/
theorem roundtrip_after_serialize (p : RootSerializer) (nsmap : Option NsMap)
    (fvs : List (String × Value))
    (hwf : wfPlan p = true)
    (hx : (attrNamesF p.fields).contains "xmlns" = false)
    (hc : conformsF p.fields fvs = true) :
    ∃ root, to_xml_tree nsmap (some p) (.vRecord fvs) = .ok root ∧
      from_xml_tree (some p) root = .ok (.vRecord fvs) := by
  have hwf2 : (nodupBool (fieldNamesF p.fields) && nodupBool (attrNamesF p.fields) &&
      wfF p.fields) = true := hwf
  simp only [Bool.and_eq_true] at hwf2
  obtain ⟨⟨hnf, hna⟩, hwfF2⟩ := hwf2
  obtain ⟨D, hser, hextr, hno⟩ := serialize_shape p fvs hnf hna hwfF2 hc
  have hAbase : ∀ pr ∈ attrPairsF p.fields fvs,
      (attrPairsF p.fields fvs).lookup pr.1 = some pr.2 := by
    intro pr hpr
    exact lookup_of_mem_nodup _ pr.1 pr.2 (by simpa using hpr)
      (by rw [attrPairsF_keys p.fields fvs hc]; exact hna)
  have hxp : (attrPairsF p.fields fvs).lookup "xmlns" = none :=
    lookup_none_of_not_contains _ _ (by rw [attrPairsF_keys p.fields fvs hc]; exact hx)
  have hbase : from_xml_tree (some p)
      (.mk p.rootTag (attrPairsF p.fields fvs) none D) = .ok (.vRecord fvs) := by
    refine from_xml_tree_ok p fvs p.rootTag (attrPairsF p.fields fvs) none D hnf hwfF2 hc ?_
    have hx0 := hextr (attrPairsF p.fields fvs) [] hAbase
    rwa [List.append_nil] at hx0
  rw [show to_xml_tree nsmap (some p) (.vRecord fvs) =
      (match p.serialize (.vRecord fvs) with
       | none => .error .assertionFailed
       | some root =>
           .ok (match nsmap with
                | none => root
                | some m =>
                    if m.isEmpty then root
                    else
                      match m.lookup "" with
                      | none => root
                      | some d => if d = "" then root else root.setAttr "xmlns" d))
      from rfl]
  rw [hser]
  cases nsmap with
  | none => exact ⟨_, rfl, hbase⟩
  | some m =>
      show ∃ root, Except.ok (if m.isEmpty then _ else _) = Except.ok root ∧ _
      by_cases hemp : m.isEmpty
      · rw [if_pos hemp]
        exact ⟨_, rfl, hbase⟩
      · rw [if_neg hemp]
        cases hlk : m.lookup "" with
        | none => exact ⟨_, rfl, hbase⟩
        | some d =>
            show ∃ root, Except.ok (if d = "" then _ else _) = Except.ok root ∧ _
            by_cases hd : d = ""
            · rw [if_pos hd]
              exact ⟨_, rfl, hbase⟩
            · rw [if_neg hd]
              refine ⟨_, rfl, ?_⟩
              rw [show (Element.mk p.rootTag (attrPairsF p.fields fvs) none D).setAttr "xmlns" d =
                  Element.mk p.rootTag (setPairs (attrPairsF p.fields fvs) "xmlns" d) none D
                  from rfl]
              rw [setPairs_fresh _ _ _ hxp]
              refine from_xml_tree_ok p fvs p.rootTag _ none D hnf hwfF2 hc ?_
              have hA2 : ∀ pr ∈ attrPairsF p.fields fvs,
                  ((attrPairsF p.fields fvs) ++ [("xmlns", d)]).lookup pr.1 = some pr.2 :=
                fun pr hpr => lookup_append_left _ _ _ _ (hAbase pr hpr)
              have hx0 := hextr ((attrPairsF p.fields fvs) ++ [("xmlns", d)]) [] hA2
              rwa [List.append_nil] at hx0

/-- Witness for claim C1: the spec's section 8 scenario
`<Root id="7"><Name>Ada</Name></Root>` round-trips. -/
theorem roundtrip_after_serialize_witness :
    ∃ root, to_xml_tree none (some adaPlan) (.vRecord adaFields) = .ok root ∧
      from_xml_tree (some adaPlan) root = .ok (.vRecord adaFields) :=
  roundtrip_after_serialize adaPlan none adaFields (by decide) (by decide) (by decide)

/-- Counterexample to claim C1 as stated: a concrete record type with two
scalar attribute fields whose resolved attribute names coincide (both `a`) is
serialized into a single attribute (the second write overwrites the first), so
deserializing the serialized tree returns a different instance. -/
theorem roundtrip_duplicate_attr_cex :
    (to_xml_tree none (some dupAttrPlan) dupAttrVal).toOption.bind
        (fun root => (from_xml_tree (some dupAttrPlan) root).toOption) =
      some (Value.vRecord [("f1", .vScalar (.vStr "2")), ("f2", .vScalar (.vStr "2"))])
    ∧ Value.vRecord [("f1", .vScalar (.vStr "2")), ("f2", .vScalar (.vStr "2"))] ≠ dupAttrVal := by
  constructor
  · rfl
  · simp [dupAttrVal]

/-! ## The root-only default-namespace declaration -/

/-- Claim C7, amended.  If the model's namespace-prefix map declares a
default (empty-prefix) namespace entry with a nonempty URI, and no field of the
plan resolves to an attribute named `xmlns` (at any level), then serializing a
valid instance sets the explicit default-namespace declaration attribute
`xmlns` on the root node, and no node below the root carries an `xmlns`
attribute. -/
theorem default_ns_root_only (p : RootSerializer) (m : NsMap) (d : String)
    (fvs : List (String × Value))
    (hwf : wfPlan p = true) (hc : conformsF p.fields fvs = true)
    (hm : m.lookup "" = some d) (hd : d ≠ "")
    (hdeep : (deepAttrNamesF p.fields).contains "xmlns" = false) :
    ∃ root, to_xml_tree (some m) (some p) (.vRecord fvs) = .ok root
      ∧ root.attrs.lookup "xmlns" = some d
      ∧ noAttrDeepList "xmlns" root.children = true := by
  have hwf2 : (nodupBool (fieldNamesF p.fields) && nodupBool (attrNamesF p.fields) &&
      wfF p.fields) = true := hwf
  simp only [Bool.and_eq_true] at hwf2
  obtain ⟨⟨hnf, hna⟩, hwfF2⟩ := hwf2
  obtain ⟨D, hser, hextr, hno⟩ := serialize_shape p fvs hnf hna hwfF2 hc
  have hemp : m.isEmpty = false := by
    cases m with
    | nil => exact absurd hm (by rw [lookup_nil_none]; simp)
    | cons p2 rest => rfl
  have hxp : (attrPairsF p.fields fvs).lookup "xmlns" = none :=
    lookup_none_of_not_contains _ _ (by
      rw [attrPairsF_keys p.fields fvs hc]
      exact attrNames_deep p.fields "xmlns" hdeep)
  rw [show to_xml_tree (some m) (some p) (.vRecord fvs) =
      (match p.serialize (.vRecord fvs) with
       | none => .error .assertionFailed
       | some root =>
           .ok (if m.isEmpty then root
                else
                  match m.lookup "" with
                  | none => root
                  | some d2 => if d2 = "" then root else root.setAttr "xmlns" d2))
      from rfl]
  rw [hser]
  show ∃ root, Except.ok (if List.isEmpty m = true then _ else _) = Except.ok root ∧ _
  rw [if_neg (by rw [hemp]; simp)]
  rw [hm]
  show ∃ root, Except.ok (if d = "" then _ else _) = Except.ok root ∧ _
  rw [if_neg hd]
  rw [show (Element.mk p.rootTag (attrPairsF p.fields fvs) none D).setAttr "xmlns" d =
      Element.mk p.rootTag (setPairs (attrPairsF p.fields fvs) "xmlns" d) none D from rfl]
  rw [setPairs_fresh _ _ _ hxp]
  refine ⟨_, rfl, ?_, ?_⟩
  · show ((attrPairsF p.fields fvs) ++ [("xmlns", d)]).lookup "xmlns" = some d
    rw [lookup_append_none _ _ _ hxp, lookup_cons, if_pos rfl]
  · show noAttrDeepList "xmlns" D = true
    exact hno "xmlns" hdeep

/-- Witness for claim C7: a model with nsmap `{"": "urn:example"}` and one
scalar element child receives `xmlns="urn:example"` on the root only. -/
theorem default_ns_root_only_witness :
    ∃ root, to_xml_tree (some [("", "urn:example")]) (some nsPlan)
        (.vRecord [("name", .vScalar (.vStr "Ada"))]) = .ok root
      ∧ root.attrs.lookup "xmlns" = some "urn:example"
      ∧ noAttrDeepList "xmlns" root.children = true :=
  default_ns_root_only nsPlan [("", "urn:example")] "urn:example"
    [("name", .vScalar (.vStr "Ada"))] (by decide) (by decide) (by decide) (by decide) (by decide)

/-- Counterexample to claim C7 as stated: a model whose nsmap contains the
default (empty-prefix) entry with the empty URI — python truthiness skips the
`root.set('xmlns', ...)` call, so no `xmlns` attribute is set on the root. -/
theorem default_ns_empty_uri_cex :
    to_xml_tree (some emptyUriNsmap) (some ⟨"R", Fields.fnil⟩) (.vRecord []) =
      .ok (.mk "R" [] none [])
    ∧ (Element.mk "R" [] none []).attrs.lookup "xmlns" = none :=
  ⟨rfl, rfl⟩

/-! ## Fail-fast behavior of template types -/

/-- Claim C2, amended.  A template type's serializer slot is `None`;
deserializing through `BaseGenericXmlModel.from_xml_tree` raises
`errors.ModelError` immediately, for any tree (no tree access happens);
serializing through `BaseXmlModel.to_xml_tree` also fails immediately for any
instance and nsmap, but with a failed `assert` statement
(`assert self.__xml_serializer__ is not None`), not a Model error. -/
theorem template_fail_fast :
    (∀ root, generic_from_xml_tree none root = .error .modelError)
    ∧ (∀ nsmap self, to_xml_tree nsmap none self = .error .assertionFailed) :=
  ⟨fun _ => rfl, fun _ _ => rfl⟩

/-- Counterexample to claim C2 as stated: serializing an instance of a
template type (empty serializer slot) produces an assertion failure, which is
not the `errors.ModelError` the claim promises. -/
theorem template_serialize_not_model_error_cex :
    to_xml_tree none none (Value.vRecord []) = .error .assertionFailed
    ∧ PyErr.assertionFailed ≠ PyErr.modelError :=
  ⟨rfl, by decide⟩

/-! ## Invariants of the class-declaration state machine -/

theorem getElem?_append_cases {α : Type} (l : List α) (a : α) (i : Nat) (x : α)
    (h : (l ++ [a])[i]? = some x) :
    (i < l.length ∧ l[i]? = some x) ∨ (i = l.length ∧ x = a) := by
  by_cases hi : i < l.length
  · left
    exact ⟨hi, by rwa [List.getElem?_append_left hi] at h⟩
  · right
    by_cases hie : i = l.length
    · subst hie
      rw [List.getElem?_concat_length] at h
      injection h with h2
      exact ⟨rfl, h2.symm⟩
    · rw [List.getElem?_eq_none_iff.mpr (by simp; omega)] at h
      cases h

theorem classInv_clsDecl (ilen : Nat) (parent : Option Nat) (kw : DeclKwargs) (g conc : Bool)
    (hpos : 0 < ilen) :
    ClassInv ilen
      (init_serializer ilen ⟨parent, some (init_subclass kw), g, conc, false, none, 0, 0⟩) := by
  have hX : init_serializer ilen ⟨parent, some (init_subclass kw), g, conc, false, none, 0, 0⟩ =
      (if g && !conc then
        ⟨parent, some (init_subclass kw), g, conc, false, some none, 1, 0⟩
       else
        ⟨parent, some (init_subclass kw), g, conc, false, some (some ilen), 1, 1⟩) := by
    cases g <;> cases conc <;> rfl
  rw [hX]
  by_cases hgc : (g && !conc) = true
  · have hg : g = true := by revert hgc; cases g <;> cases conc <;> simp
    have hco : conc = false := by revert hgc; cases g <;> cases conc <;> simp
    subst hg
    subst hco
    show ClassInv ilen ⟨parent, some (init_subclass kw), true, false, false, some none, 1, 0⟩
    refine ⟨by simp, fun h0 => absurd h0 (by omega), fun _ _ => rfl,
      fun hvg => absurd hvg (by simp), ?_, ?_⟩
    · intro q hq
      injection hq with hq2
      exact Option.noConfusion hq2
    · intro _
      simp [isConcreteClass]
  · rw [if_neg hgc]
    refine ⟨by simp, fun h0 => absurd h0 (by omega), fun _ _ => rfl,
      fun hvg => absurd hvg (by simp), ?_, ?_⟩
    · intro q hq
      injection hq with hq2
      injection hq2 with hq3
      exact hq3.symm
    · intro _
      have hcc : isConcreteClass
          ⟨parent, some (init_subclass kw), g, conc, false, some (some ilen), 1, 1⟩ = true := by
        revert hgc; cases g <;> cases conc <;> simp [isConcreteClass]
      rw [hcc]
      simp only [if_true]
      exact ⟨ilen, rfl⟩

theorem classInv_getItem (ilen tid : Nat) (argsConc : Bool) (tv : Option XmlClassVars)
    (hpos : 0 < ilen) :
    ClassInv ilen
      (init_serializer ilen
        { init_serializer ilen
            ⟨some tid, some (init_subclass defaultDeclKwargs), true, false, true, none, 0, 0⟩ with
          concrete := argsConc, vars := tv }) := by
  have hY : init_serializer ilen
      { init_serializer ilen
          ⟨some tid, some (init_subclass defaultDeclKwargs), true, false, true, none, 0, 0⟩ with
        concrete := argsConc, vars := tv } =
      (if argsConc then ⟨some tid, tv, true, true, true, some (some ilen), 2, 1⟩
       else ⟨some tid, tv, true, false, true, some none, 2, 0⟩) := by
    cases argsConc <;> rfl
  rw [hY]
  cases argsConc with
  | true =>
      show ClassInv ilen ⟨some tid, tv, true, true, true, some (some ilen), 2, 1⟩
      refine ⟨by simp, fun h0 => absurd h0 (by omega), fun _ hvg => absurd hvg (by simp),
        fun _ => by simp, ?_, ?_⟩
      · intro q hq
        injection hq with hq2
        injection hq2 with hq3
        exact hq3.symm
      · intro _
        simp only [isConcreteClass]
        exact ⟨ilen, rfl⟩
  | false =>
      show ClassInv ilen ⟨some tid, tv, true, false, true, some none, 2, 0⟩
      refine ⟨by simp, fun h0 => absurd h0 (by omega), fun _ hvg => absurd hvg (by simp),
        fun _ => by simp, ?_, ?_⟩
      · intro q hq
        injection hq with hq2
        exact Option.noConfusion hq2
      · intro _
        simp [isConcreteClass]

theorem metaInv_step (st : MetaState) (d : Decl) (h : MetaInv st) : MetaInv (metaStep st d) := by
  obtain ⟨hflag, hcls, htmpl⟩ := h
  cases d with
  | clsDecl parent kw g conc =>
      by_cases hb : st.isBaseModelDefined
      · rw [show metaStep st (.clsDecl parent kw g conc) =
            ⟨true, st.classes ++
              [init_serializer st.classes.length
                ⟨parent, some (init_subclass kw), g, conc, false, none, 0, 0⟩]⟩ from by
          rw [metaStep]; rw [if_pos hb]]
        have hpos : 0 < st.classes.length := by
          rw [hb] at hflag
          have hne : st.classes ≠ [] := by
            intro hn
            rw [hn] at hflag
            simp at hflag
          exact List.length_pos.mpr hne
        refine ⟨by simp, ?_, ?_⟩
        · intro i c hic
          rcases getElem?_append_cases _ _ _ _ hic with ⟨hi, hio⟩ | ⟨hie, hce⟩
          · exact hcls i c hio
          · subst hie
            subst hce
            exact classInv_clsDecl st.classes.length parent kw g conc hpos
        · intro i c hic hvg
          rcases getElem?_append_cases _ _ _ _ hic with ⟨hi, hio⟩ | ⟨hie, hce⟩
          · obtain ⟨tid, tmpl, hp, hlk, hvars⟩ := htmpl i c hio hvg
            have htl : tid < st.classes.length := by
              by_cases hh : tid < st.classes.length
              · exact hh
              · rw [List.getElem?_eq_none_iff.mpr (by omega)] at hlk; cases hlk
            exact ⟨tid, tmpl, hp, by rw [List.getElem?_append_left htl]; exact hlk, hvars⟩
          · subst hie
            subst hce
            have : (init_serializer st.classes.length
                ⟨parent, some (init_subclass kw), g, conc, false, none, 0, 0⟩).viaGetItem =
                false := by
              cases g <;> cases conc <;> rfl
            rw [this] at hvg
            cases hvg
      · rw [show metaStep st (.clsDecl parent kw g conc) =
            ⟨true, st.classes ++ [⟨parent, none, g, conc, false, none, 0, 0⟩]⟩ from by
          rw [metaStep]; rw [if_neg hb]]
        have hnil : st.classes = [] := by
          cases he : st.classes.isEmpty
          · rw [he] at hflag
            simp at hflag
            exact absurd hflag hb
          · exact List.isEmpty_iff.mp he
        rw [hnil]
        refine ⟨by simp, ?_, ?_⟩
        · intro i c hic
          rcases getElem?_append_cases _ _ _ _ hic with ⟨hi, _⟩ | ⟨hie, hce⟩
          · simp at hi
          · simp at hie
            subst hie
            subst hce
            exact ⟨by simp, fun _ => ⟨rfl, rfl, rfl, rfl⟩, fun h0 _ => absurd h0 (by omega),
              fun hvg => by simp at hvg, fun q hq => by simp at hq,
              fun h0 => absurd h0 (by omega)⟩
        · intro i c hic hvg
          rcases getElem?_append_cases _ _ _ _ hic with ⟨hi, _⟩ | ⟨hie, hce⟩
          · simp at hi
          · simp at hie
            subst hie
            subst hce
            simp at hvg
  | getItem tid argsConc =>
      cases hlt : st.classes[tid]? with
      | none =>
          rw [show metaStep st (.getItem tid argsConc) = st from by
            rw [metaStep]; rw [hlt]]
          exact ⟨hflag, hcls, htmpl⟩
      | some tmpl =>
          have htl : tid < st.classes.length := by
            by_cases hh : tid < st.classes.length
            · exact hh
            · rw [List.getElem?_eq_none_iff.mpr (by omega)] at hlt; cases hlt
          have hpos : 0 < st.classes.length := by omega
          have hb : st.isBaseModelDefined = true := by
            rw [hflag]
            rcases hn : st.classes with _ | _
            · rw [hn] at htl; simp at htl
            · simp
          rw [show metaStep st (.getItem tid argsConc) =
              ⟨st.isBaseModelDefined, st.classes ++
                [init_serializer st.classes.length
                  { init_serializer st.classes.length
                      ⟨some tid, some (init_subclass defaultDeclKwargs), true, false, true,
                        none, 0, 0⟩ with
                    concrete := argsConc, vars := tmpl.vars }]⟩ from by
            rw [metaStep]
            rw [hlt]
            rw [if_pos hb]]
        
          refine ⟨by rw [hb]; simp, ?_, ?_⟩
          · intro i c hic
            rcases getElem?_append_cases _ _ _ _ hic with ⟨hi, hio⟩ | ⟨hie, hce⟩
            · exact hcls i c hio
            · subst hie
              subst hce
              exact classInv_getItem st.classes.length tid argsConc tmpl.vars hpos
          · intro i c hic hvg
            rcases getElem?_append_cases _ _ _ _ hic with ⟨hi, hio⟩ | ⟨hie, hce⟩
            · obtain ⟨tid2, tmpl2, hp, hlk, hvars⟩ := htmpl i c hio hvg
              have htl2 : tid2 < st.classes.length := by
                by_cases hh : tid2 < st.classes.length
                · exact hh
                · rw [List.getElem?_eq_none_iff.mpr (by omega)] at hlk; cases hlk
              exact ⟨tid2, tmpl2, hp, by rw [List.getElem?_append_left htl2]; exact hlk, hvars⟩
            · subst hie
              subst hce
              refine ⟨tid, tmpl, ?_, by rw [List.getElem?_append_left htl]; exact hlt, ?_⟩
              · cases argsConc <;> rfl
              · cases argsConc <;> rfl

theorem metaInv_initial : MetaInv ⟨false, []⟩ :=
  ⟨rfl, fun i c hic => by simp at hic, fun i c hic => by simp at hic⟩

theorem metaInv_foldl (ds : List Decl) (st : MetaState) (h : MetaInv st) :
    MetaInv (ds.foldl metaStep st) := by
  induction ds generalizing st with
  | nil => exact h
  | cons d rest ih => exact ih (metaStep st d) (metaInv_step st d h)

theorem metaInv_run (ds : List Decl) : MetaInv (runDecls ds) :=
  metaInv_foldl ds ⟨false, []⟩ metaInv_initial

theorem metaStep_extends (st : MetaState) (d : Decl) :
    ∃ tail, (metaStep st d).classes = st.classes ++ tail := by
  cases d with
  | clsDecl parent kw g conc =>
      by_cases hb : st.isBaseModelDefined
      · exact ⟨_, by rw [metaStep]; rw [if_pos hb]⟩
      · exact ⟨_, by rw [metaStep]; rw [if_neg hb]⟩
  | getItem tid argsConc =>
      cases hlt : st.classes[tid]? with
      | none => exact ⟨[], by rw [metaStep]; rw [hlt, List.append_nil]⟩
      | some tmpl => exact ⟨_, by rw [metaStep]; rw [hlt]⟩

theorem foldl_extends (es : List Decl) (st : MetaState) :
    ∃ tail, (es.foldl metaStep st).classes = st.classes ++ tail := by
  induction es generalizing st with
  | nil => exact ⟨[], by simp⟩
  | cons d rest ih =>
      obtain ⟨t1, h1⟩ := metaStep_extends st d
      obtain ⟨t2, h2⟩ := ih (metaStep st d)
      exact ⟨t1 ++ t2, by rw [show (d :: rest).foldl metaStep st = rest.foldl metaStep (metaStep st d) from rfl, h2, h1, List.append_assoc]⟩

theorem runDecls_take (ds es : List Decl) :
    (runDecls (ds ++ es)).classes.take (runDecls ds).classes.length = (runDecls ds).classes := by
  have hfold : runDecls (ds ++ es) = es.foldl metaStep (runDecls ds) := by
    rw [runDecls, List.foldl_append]
    rfl
  obtain ⟨tail, htail⟩ := foldl_extends es (runDecls ds)
  rw [hfold, htail, List.take_left]

/-! ## Claims about the declaration machinery -/

/-- Claim C3.  Over every declaration sequence: every class's Compiled
Serializer is built at most once; the abstract base class (index 0) skips
compilation entirely (its `__init_serializer__` never runs and its slot is
never assigned); every class created by a later `class` statement runs
serializer initialization exactly once, at class-creation time; a generic
specialization compiles its own new plan (exactly once when its arguments are
concrete, never otherwise); and declaring further classes never changes any
previously declared class — in particular never rebuilds an existing type's
serializer. -/
theorem serializer_compiled_at_most_once (ds es : List Decl) :
    (∀ c ∈ (runDecls ds).classes, c.compileCount ≤ 1)
    ∧ (∀ c : ClassState, (runDecls ds).classes[0]? = some c →
        c.compileCount = 0 ∧ c.initCount = 0 ∧ c.slot = none)
    ∧ (∀ (i : Nat) (c : ClassState), (runDecls ds).classes[i]? = some c → 0 < i →
        c.viaGetItem = false → c.initCount = 1)
    ∧ (∀ (i : Nat) (c : ClassState), (runDecls ds).classes[i]? = some c → c.viaGetItem = true →
        c.compileCount = (if c.concrete then 1 else 0))
    ∧ (runDecls (ds ++ es)).classes.take (runDecls ds).classes.length = (runDecls ds).classes := by
  obtain ⟨hflag, hcls, htmpl⟩ := metaInv_run ds
  refine ⟨?_, ?_, ?_, ?_, runDecls_take ds es⟩
  · intro c hmem
    obtain ⟨i, hi⟩ := List.mem_iff_getElem?.mp hmem
    exact (hcls i c hi).1
  · intro c h0
    obtain ⟨h1, h2, h3, _⟩ := (hcls 0 c h0).2.1 rfl
    exact ⟨h1, h2, h3⟩
  · intro i c hi hpos hv
    exact (hcls i c hi).2.2.1 hpos hv
  · intro i c hi hv
    exact (hcls i c hi).2.2.2.1 hv

/-- Witness for claim C3: in the run declaring the base and then a generic
template, the template compiled at most once and was initialized exactly
once at its declaration. -/
theorem serializer_compiled_at_most_once_witness :
    templateClass.compileCount ≤ 1 ∧ templateClass.initCount = 1 :=
  ⟨(serializer_compiled_at_most_once templateDecls []).1 templateClass (by decide),
   (serializer_compiled_at_most_once templateDecls []).2.2.1 1 templateClass (by decide)
     (by decide) (by decide)⟩

/-- Claim C6.  After declaration completes, every class declared after the
abstract base has its serializer slot assigned, and it holds a compiled plan
if and only if the class is concrete: a non-concrete generic template's slot
is explicitly set to `None`, every concrete class's slot is a compiled plan. -/
theorem serializer_slot_iff_concrete (ds : List Decl) (i : Nat) (c : ClassState)
    (h : (runDecls ds).classes[i]? = some c) (hi : 0 < i) :
    (isConcreteClass c = true → ∃ q : Nat, c.slot = some (some q))
    ∧ (isConcreteClass c = false → c.slot = some none) := by
  obtain ⟨hflag, hcls, htmpl⟩ := metaInv_run ds
  have hif := (hcls i c h).2.2.2.2.2 hi
  constructor
  · intro hcc
    rwa [if_pos hcc] at hif
  · intro hcc
    rwa [if_neg (by rw [hcc]; simp)] at hif

/-- Witness for claim C6: the declared template is not concrete and its slot
was explicitly assigned `None`. -/
theorem serializer_slot_iff_concrete_witness : templateClass.slot = some none :=
  (serializer_slot_iff_concrete templateDecls 1 templateClass (by decide) (by decide)).2
    (by decide)

/-- Claim C5.  Specializing a declared template with concrete type arguments
produces a new concrete class that copies the template's tag, namespace,
namespace-prefix map and ns_attrs flag by value (`vars`), and whose Compiled
Serializer is a freshly compiled plan owned by the new class — never shared
with the template or with any other class (in particular not with a sibling
specialization). -/
theorem specialization_independent (ds : List Decl) (tid : Nat) (tmpl : ClassState)
    (h : (runDecls ds).classes[tid]? = some tmpl) :
    ∃ c : ClassState,
      (runDecls (ds ++ [.getItem tid true])).classes[(runDecls ds).classes.length]? = some c
      ∧ c.vars = tmpl.vars
      ∧ c.slot = some (some (runDecls ds).classes.length)
      ∧ tmpl.slot ≠ some (some (runDecls ds).classes.length)
      ∧ (∀ (j : Nat) (cj : ClassState),
          (runDecls (ds ++ [.getItem tid true])).classes[j]? = some cj →
          j ≠ (runDecls ds).classes.length →
          cj.slot ≠ some (some (runDecls ds).classes.length)) := by
  obtain ⟨hflag, hcls, htmpl⟩ := metaInv_run ds
  have htl : tid < (runDecls ds).classes.length := by
    by_cases hh : tid < (runDecls ds).classes.length
    · exact hh
    · rw [List.getElem?_eq_none_iff.mpr (by omega)] at h
      cases h
  have hb : (runDecls ds).isBaseModelDefined = true := by
    rw [hflag]
    rcases hn : (runDecls ds).classes with _ | _
    · rw [hn] at htl
      simp at htl
    · simp
  have hstep : runDecls (ds ++ [.getItem tid true]) =
      metaStep (runDecls ds) (.getItem tid true) := by
    rw [runDecls, List.foldl_append]
    rfl
  have hY : metaStep (runDecls ds) (.getItem tid true) =
      ⟨(runDecls ds).isBaseModelDefined, (runDecls ds).classes ++
        [⟨some tid, tmpl.vars, true, true, true,
          some (some (runDecls ds).classes.length), 2, 1⟩]⟩ := by
    rw [metaStep]
    rw [h]
    rw [if_pos hb]
    rfl
  refine ⟨⟨some tid, tmpl.vars, true, true, true,
      some (some (runDecls ds).classes.length), 2, 1⟩, ?_, rfl, rfl, ?_, ?_⟩
  · rw [hstep, hY]
    show ((runDecls ds).classes ++ [_])[(runDecls ds).classes.length]? = _
    exact List.getElem?_concat_length _ _
  · intro hq
    have hown := (hcls tid tmpl h).2.2.2.2.1 (runDecls ds).classes.length hq
    omega
  · intro j cj hj hjne
    rw [hstep, hY] at hj
    rcases getElem?_append_cases _ _ _ _ hj with ⟨hjl, hjo⟩ | ⟨hje, _⟩
    · intro hq
      have hown := (hcls j cj hjo).2.2.2.2.1 (runDecls ds).classes.length hq
      omega
    · exact absurd hje hjne

/-- Witness for claim C5: specializing the declared template. -/
theorem specialization_independent_witness :
    ∃ c : ClassState,
      (runDecls (templateDecls ++ [.getItem 1 true])).classes[(runDecls templateDecls).classes.length]? = some c
      ∧ c.vars = templateClass.vars
      ∧ c.slot = some (some (runDecls templateDecls).classes.length)
      ∧ templateClass.slot ≠ some (some (runDecls templateDecls).classes.length)
      ∧ (∀ (j : Nat) (cj : ClassState),
          (runDecls (templateDecls ++ [.getItem 1 true])).classes[j]? = some cj →
          j ≠ (runDecls templateDecls).classes.length →
          cj.slot ≠ some (some (runDecls templateDecls).classes.length)) :=
  specialization_independent templateDecls 1 templateClass (by decide)

/-- Claim C4, amended.  A subtype's xml configuration is determined solely by
its own declaration keyword arguments (with the python defaults
`tag=None, ns=None, nsmap=None, ns_attrs=False` when omitted):
`__init_subclass__` assigns the four class variables unconditionally, so the
parent type's configuration is never inherited through the declaration — the
only construct that copies a parent's configuration is generic
specialization. -/
theorem declaration_sets_own_vars (ds : List Decl) (parent : Option Nat) (kw : DeclKwargs)
    (g conc : Bool) (hne : (runDecls ds).classes ≠ []) :
    ∃ c : ClassState,
      (runDecls (ds ++ [.clsDecl parent kw g conc])).classes[(runDecls ds).classes.length]? =
        some c
      ∧ c.vars = some (init_subclass kw) := by
  obtain ⟨hflag, hcls, htmpl⟩ := metaInv_run ds
  have hb : (runDecls ds).isBaseModelDefined = true := by
    cases he : (runDecls ds).classes.isEmpty
    · rw [hflag, he]
      rfl
    · exact absurd (List.isEmpty_iff.mp he) hne
  have hstep0 : runDecls (ds ++ [.clsDecl parent kw g conc]) =
      metaStep (runDecls ds) (.clsDecl parent kw g conc) := by
    rw [runDecls, List.foldl_append]
    rfl
  have hstep : runDecls (ds ++ [.clsDecl parent kw g conc]) =
      ⟨true, (runDecls ds).classes ++ [init_serializer (runDecls ds).classes.length
        ⟨parent, some (init_subclass kw), g, conc, false, none, 0, 0⟩]⟩ := by
    rw [hstep0]
    rw [metaStep]
    rw [if_pos hb]
  refine ⟨init_serializer (runDecls ds).classes.length
      ⟨parent, some (init_subclass kw), g, conc, false, none, 0, 0⟩, ?_, ?_⟩
  · rw [hstep]
    show ((runDecls ds).classes ++ [_])[(runDecls ds).classes.length]? = _
    exact List.getElem?_concat_length _ _
  · show (init_serializer _ _).vars = _
    unfold init_serializer
    split <;> rfl

/-- Witness for claim C4: declaring a child of the tagged parent with its own
keyword arguments stores exactly those arguments. -/
theorem declaration_sets_own_vars_witness :
    ∃ c : ClassState,
      (runDecls (inheritDecls ++
        [.clsDecl (some 1) ⟨some "child", none, none, true⟩ false true])).classes[(runDecls inheritDecls).classes.length]? = some c
      ∧ c.vars = some (init_subclass ⟨some "child", none, none, true⟩) :=
  declaration_sets_own_vars inheritDecls (some 1) ⟨some "child", none, none, true⟩ false true
    (by decide)

/-- Counterexample to claim C4 as stated: the parent (index 1) was declared
with tag `parent-tag`, but its subtype (index 2), declared with no keyword
arguments, holds `tag=None` rather than inheriting the parent's tag. -/
theorem config_not_inherited_cex :
    ((runDecls inheritDecls).classes[2]?).map ClassState.vars =
      some (some ⟨none, none, none, false⟩)
    ∧ ((runDecls inheritDecls).classes[1]?).map ClassState.vars =
      some (some ⟨some "parent-tag", none, none, false⟩)
    ∧ (some "parent-tag" : Option String) ≠ none :=
  ⟨by decide, by decide, by simp⟩

/-! ## Claims about the namespace registry, entity descriptors and wrappers -/

/-- Claim C8.  Each of the three declaration sites carrying a namespace-prefix
map (element entity, wrapper entity, model serializer initialization) updates
the process-wide registry by merging the map exactly when the global
auto-register option is enabled and a map is present; when the option is
disabled or no map is present the registry is left unchanged.  (Merging the
present-but-empty map is the identity, matching the python truthiness guard.) -/
theorem registry_effect_iff_enabled (opt : Bool) (reg : NsRegistry) (nsmap : Option NsMap) :
    xmlElementInfoRegistryEffect opt reg nsmap =
      (if opt && nsmap.isSome then register_nsmap reg (nsmap.getD []) else reg)
    ∧ xmlWrapperInfoRegistryEffect opt reg nsmap =
      (if opt && nsmap.isSome then register_nsmap reg (nsmap.getD []) else reg)
    ∧ initSerializerRegistryEffect opt reg nsmap =
      (if opt && nsmap.isSome then register_nsmap reg (nsmap.getD []) else reg) := by
  have h1 : xmlElementInfoRegistryEffect opt reg nsmap =
      (if opt && nsmap.isSome then register_nsmap reg (nsmap.getD []) else reg) := by
    cases nsmap with
    | none => cases opt <;> rfl
    | some m =>
        cases m with
        | nil => cases opt <;> rfl
        | cons p rest => cases opt <;> rfl
  exact ⟨h1, h1, h1⟩

/-- Claim C9.  The entity descriptor constructors `attr`, `element` and
`wrapped` each return an object of (a subclass of) the validation engine's
field-info type, forwarding all non-xml keyword arguments unchanged to the
field-info constructor, so an xml-annotated field keeps ordinary field
semantics in the validated record type. -/
theorem entity_info_extends_field_info (name ens tag wns : Option String)
    (nsmap wnsmap : Option NsMap) (path : String) (ent : Option InnerEntity)
    (kwargs : List (String × String)) :
    (attr name ens kwargs).toFieldInfo = FieldInfo.mk kwargs
    ∧ (element tag ens nsmap kwargs).toFieldInfo = FieldInfo.mk kwargs
    ∧ (wrapped path ent wns wnsmap kwargs).toFieldInfo = FieldInfo.mk kwargs :=
  ⟨rfl, rfl, rfl⟩

/-- Claim C10.  Constructing a wrapper descriptor with only a path succeeds:
the inner entity is optional and stored as `None` when omitted, while the
mandatory path argument is stored unchanged. -/
theorem wrapped_path_entity_optional (path : String) (kwargs : List (String × String)) :
    (wrapped path none none none kwargs).entity = none
    ∧ (wrapped path none none none kwargs).path = path :=
  ⟨rfl, rfl⟩
